import Mathlib

/-!
Verification of the qstr fixed-capacity string containers.

The development shallowly embeds the core data types of the repository:
the positional bit-mask (`Bitmap`), the small string vector (`StrVec`),
the bounded string (`BoundedStr`) and the fixed string (`FixedStr`).
Rust byte strings are modelled as lists of naturals (`Str`), machine
integers of width `W` as naturals below `2 ^ W`, and fallible operations
either return `Except`/`Option` values or an explicit pair of the updated
state and an optional error, mirroring `&mut self` methods returning
`Result`.
-/

namespace QStr

/-- Bytes of a Rust string slice. -/
abbrev Str := List Nat

/-- The single recoverable error of the library (`errors.rs`):
`ExceedsCapacity { length, capacity }`. -/
structure ExceedsCapacity where
  length : Nat
  capacity : Nat
deriving DecidableEq

deriving instance DecidableEq for Except

/-! ## Positional bit-mask (`bitmap.rs`)

A `W`-bit unsigned integer is modelled as a natural number `< 2 ^ W`.
Bit position `p` (with position 0 denoting the most-significant bit)
corresponds to bit index `W - 1 - p` of the natural number. -/

namespace Bitmap

/-- Sets the bit at position `offset`: `*self |= 1 << (bits - 1 - offset)`. -/
def set (W v offset : Nat) : Nat := v ||| (1 <<< (W - 1 - offset))

/-- Unsets the bit at position `offset`:
`*self &= !(1 << (bits - 1 - offset))`, with complement taken at width `W`. -/
def unset (W v offset : Nat) : Nat :=
  v &&& ((2 ^ W - 1) ^^^ (1 <<< (W - 1 - offset)))

/-- Counts the zero bits above the first set bit, scanning bit indices
`w - 1, w - 2, ..., 0`; returns `w` if no bit is set. -/
def leading_zerosAux : Nat → Nat → Nat
  | 0, _ => 0
  | w + 1, v => if v.testBit w then 0 else leading_zerosAux w v + 1

/-- Model of `uW::leading_zeros`. -/
def leading_zeros (W v : Nat) : Nat := leading_zerosAux W v

/-- Model of `uW::trailing_zeros`: counts low zero bits, `W` for zero. -/
def trailing_zeros : Nat → Nat → Nat
  | 0, _ => 0
  | w + 1, v => if v % 2 = 1 then 0 else trailing_zeros w (v / 2) + 1

/-- Counts the set bits among bit indices `0, ..., w - 1`. -/
def count_onesAux : Nat → Nat → Nat
  | 0, _ => 0
  | w + 1, v => count_onesAux w v + (if v.testBit w then 1 else 0)

/-- Model of `uW::count_ones` for a value below `2 ^ W`. -/
def count_ones (W v : Nat) : Nat := count_onesAux W v

/-- Loop body of `Bitmap::find_nth_span`.  The Rust `while value != 0`
loop terminates because each iteration clears the first set bit; the
model carries explicit fuel, and `W + 1` units are shown sufficient for
any `value < 2 ^ W`. -/
def find_nth_spanAux (W n : Nat) : Nat → Nat → Nat → Nat → Option (Nat × Nat)
  | 0, _, _, _ => none
  | fuel + 1, value, start, count =>
    if value = 0 then none
    else
      let e := leading_zeros W value
      if count = n then some (start, e + 1)
      else find_nth_spanAux W n fuel (unset W value e) (e + 1) (count + 1)

/-- Model of `Bitmap::find_nth_span`. -/
def find_nth_span (W v n : Nat) : Option (Nat × Nat) :=
  find_nth_spanAux W n (W + 1) v 0 0

end Bitmap

/-! ## Reference view of a bit-mask as a list of positions

`setPositions W v` lists the positions (0 = most-significant bit) of the
set bits of `v`, in increasing order.  It is the abstraction used to
state what `find_nth_span` computes and to phrase the string-vector
representation invariant. -/

/-- Positions of set bits: at width argument `w + 1` the tested bit index
is `w` and the corresponding position is `p`. -/
def setPositionsAux : Nat → Nat → Nat → List Nat
  | 0, _, _ => []
  | w + 1, v, p =>
    if v.testBit w then p :: setPositionsAux w v (p + 1)
    else setPositionsAux w v (p + 1)

/-- Positions (0 = MSB) of the set bits of a `W`-bit value, increasing. -/
def setPositions (W v : Nat) : List Nat := setPositionsAux W v 0

/-- Clears bit index `b` (plain index, not position) of a natural. -/
def clearB (v b : Nat) : Nat := if v.testBit b then v ^^^ (2 ^ b) else v

/-- Spans induced by a list of end positions: each position `p` ends a
span `(start, p + 1)` and the next span starts at `p + 1`. -/
def spansOfPositions : Nat → List Nat → List (Nat × Nat)
  | _, [] => []
  | start, p :: ps => (start, p + 1) :: spansOfPositions (p + 1) ps

/-! ## Short string vector (`str_vec.rs`) -/

/-- Model of `StrVec<T, N, Alignment>` where `T` is the `W`-bit bitmap
type.  The zero-sized alignment parameter carries no data and is
omitted. -/
structure StrVec (W N : Nat) where
  bitmap : Nat
  data : List Nat
deriving DecidableEq

/-- Slice `data[a..b]` of a byte buffer. -/
def slice (data : List Nat) (a b : Nat) : List Nat := (data.drop a).take (b - a)

namespace StrVec

/-- Model of `StrVec::new`. -/
def new (W N : Nat) : StrVec W N := { bitmap := 0, data := List.replicate N 0 }

/-- Model of `StrVec::len`: population count of the bitmap. -/
def len {W N : Nat} (v : StrVec W N) : Nat := Bitmap.count_ones W v.bitmap

/-- Model of `StrVec::next_offset`: `T::BITSIZE - bitmap.trailing_zeros()`. -/
def next_offset {W N : Nat} (v : StrVec W N) : Nat :=
  W - Bitmap.trailing_zeros W v.bitmap

/-- Overwrites `data[offset .. offset + s.length]` with `s`. -/
def writeSlice (data : List Nat) (offset : Nat) (s : List Nat) : List Nat :=
  data.take offset ++ s ++ data.drop (offset + s.length)

/-- Model of `StrVec::push`.  Returns the updated vector together with an
optional error; on error the vector component is the unchanged receiver,
mirroring the untouched `&mut self`. -/
def push {W N : Nat} (v : StrVec W N) (s : Str) :
    StrVec W N × Option ExceedsCapacity :=
  let s := if s = [] then [0] else s
  let offset := v.next_offset
  let str_len := s.length
  if offset + str_len > N then
    (v, some { length := offset + str_len, capacity := N })
  else
    ({ bitmap := Bitmap.set W v.bitmap (offset + str_len - 1),
       data := writeSlice v.data offset s }, none)

/-- Model of `StrVec::clear`. -/
def clear {W N : Nat} (_v : StrVec W N) : StrVec W N := new W N

/-- Model of `StrVec::get`. -/
def get {W N : Nat} (v : StrVec W N) (index : Nat) : Option Str :=
  match Bitmap.find_nth_span W v.bitmap index with
  | none => none
  | some (offset, e) =>
    let span := slice v.data offset e
    if span = [0] then some [] else some span

/-- Loop body of `StrVec::iter`: `len` iterations over a working copy of
the bitmap, taking `leading_zeros` as the next end position each time. -/
def iterAux (W : Nat) (data : List Nat) : Nat → Nat → Nat → List Str
  | 0, _, _ => []
  | k + 1, offset, bitmap =>
    let e := Bitmap.leading_zeros W bitmap
    let span := slice data offset (e + 1)
    (if span = [0] then [] else span) ::
      iterAux W data k (e + 1) (Bitmap.unset W bitmap e)

/-- Model of `StrVec::iter`, collected into a list. -/
def iter {W N : Nat} (v : StrVec W N) : List Str :=
  iterAux W v.data v.len 0 v.bitmap

/-- Loop of `StrVec::try_from`: pushes every value in order, propagating
the first error. -/
def try_fromAux {W N : Nat} (v : StrVec W N) :
    List Str → Except ExceedsCapacity (StrVec W N)
  | [] => .ok v
  | s :: rest =>
    match v.push s with
    | (v2, none) => try_fromAux v2 rest
    | (_, some e) => .error e

/-- Model of `StrVec::try_from`. -/
def try_from (W N : Nat) (ss : List Str) : Except ExceedsCapacity (StrVec W N) :=
  try_fromAux (new W N) ss

/-- Model of the comparison `self.data.cmp(&other.data)` on byte arrays:
lexicographic ordering. -/
def cmpBytes : List Nat → List Nat → Ordering
  | [], [] => .eq
  | [], _ :: _ => .lt
  | _ :: _, [] => .gt
  | a :: as_, b :: bs =>
    if a < b then .lt else if b < a then .gt else cmpBytes as_ bs

/-- Model of `Ord for StrVec`: compares only the `data` buffers. -/
def cmp {W N : Nat} (v w : StrVec W N) : Ordering := cmpBytes v.data w.data

/-- Model of `Hash for StrVec`: the byte stream fed to the hasher is the
`data` buffer alone, so two vectors hash identically iff these streams
coincide. -/
def hashBytes {W N : Nat} (v : StrVec W N) : List Nat := v.data

end StrVec

/-! ## Abstraction helpers for `StrVec` -/

/-- Stored representation of a pushed string: the empty string is
substituted by the single byte `0x00`. -/
def storedRepr (s : Str) : Str := if s = [] then [0] else s

/-- Result of reading back a stored item: a single NUL byte decodes to
the empty string. -/
def decodeSpan (s : Str) : Str := if s = [0] then [] else s

/-- Observable result of pushing `s` and reading it back: `""` and
`"\0"` both collapse to the empty string. -/
def collapse (s : Str) : Str := if s = [] ∨ s = [0] then [] else s

/-- Total byte length of a list of items. -/
def totalLen (items : List Str) : Nat := (items.map List.length).sum

/-- End positions of the items laid out contiguously from `off`. -/
def boundsAux : Nat → List Str → List Nat
  | _, [] => []
  | off, it :: rest => (off + it.length - 1) :: boundsAux (off + it.length) rest

/-- End positions of the items laid out contiguously from offset 0. -/
def bounds (items : List Str) : List Nat := boundsAux 0 items

/-- Representation invariant of a string vector holding exactly the
stored items `items` (each already in stored representation, hence
nonempty). -/
def StrVecInv {W N : Nat} (v : StrVec W N) (items : List Str) : Prop :=
  N ≤ W ∧
  (∀ it ∈ items, it ≠ []) ∧
  totalLen items ≤ N ∧
  v.bitmap < 2 ^ W ∧
  setPositions W v.bitmap = bounds items ∧
  v.data = items.flatten ++ List.replicate (N - totalLen items) 0

/-! ## Bounded string (`bounded_str.rs`) -/

/-- Model of `BoundedStr<N, Alignment>`: a length byte plus an `N`-byte
buffer.  The length field is a `u8` in the source; it is modelled as a
natural number, and every write of the field goes through the wrapping
cast `as u8`, modelled as `% 256`. -/
structure BoundedStr (N : Nat) where
  length : Nat
  data : List Nat
deriving DecidableEq

namespace BoundedStr

/-- Model of `BoundedStr::new`. -/
def new (N : Nat) : BoundedStr N := { length := 0, data := List.replicate N 0 }

/-- Model of `BoundedStr::const_from`; `none` models the panic on
overflow.  The stored length goes through the wrapping `length as u8`
cast. -/
def const_from (N : Nat) (src : Str) : Option (BoundedStr N) :=
  if src.length > N then none
  else some { length := src.length % 256,
              data := src ++ List.replicate (N - src.length) 0 }

/-- Model of `BoundedStr::const_try_from`, with the wrapping
`length as u8` cast. -/
def const_try_from (N : Nat) (src : Str) : Option (BoundedStr N) :=
  if src.length > N then none
  else some { length := src.length % 256,
              data := src ++ List.replicate (N - src.length) 0 }

/-- Model of `BoundedStr::try_from`.  The capacity check and the byte
copy use the full length; only the stored field is wrapped by
`length as u8`. -/
def try_from (N : Nat) (s : Str) : Except ExceedsCapacity (BoundedStr N) :=
  if s.length > N then .error { length := s.length, capacity := N }
  else .ok { length := s.length % 256,
             data := s ++ List.replicate (N - s.length) 0 }

/-- Model of `BoundedStr::len`. -/
def lenB {N : Nat} (b : BoundedStr N) : Nat := b.length

/-- Model of `BoundedStr::push_str`, returning the updated string and an
optional error; on error the string component is the unchanged
receiver.  The capacity check, the error value and the byte copy use the
full `new_len`; the stored field is written through the wrapping
`new_len as u8` cast. -/
def push_str {N : Nat} (b : BoundedStr N) (s : Str) :
    BoundedStr N × Option ExceedsCapacity :=
  let new_len := b.length + s.length
  if new_len > N then
    (b, some { length := new_len, capacity := N })
  else
    ({ length := new_len % 256,
       data := StrVec.writeSlice b.data b.length s }, none)

/-- Model of `BoundedStr::push`: the character is UTF-8 encoded by the
caller of the model and pushed as its byte sequence. -/
def push {N : Nat} (b : BoundedStr N) (c : Str) :
    BoundedStr N × Option ExceedsCapacity :=
  b.push_str c

/-- Model of `BoundedStr::as_str`: the first `length` bytes. -/
def as_str {N : Nat} (b : BoundedStr N) : Str := b.data.take b.length

end BoundedStr

/-- Invariant maintained by every `BoundedStr` constructor and mutator:
the buffer is the content followed by NUL padding. -/
def BInv {N : Nat} (b : BoundedStr N) : Prop :=
  ∃ s : Str, s.length = b.length ∧ s.length ≤ N ∧
    b.data = s ++ List.replicate (N - s.length) 0

/-- Outcome of `BoundedStr::split`: a result vector, a panic
(failed `unwrap` or out-of-range slice), or exhausted fuel (shown
unreachable for the fuel used). -/
inductive SplitResult (W N : Nat) where
  | ok : StrVec W N → SplitResult W N
  | crash : SplitResult W N
  | fuelOut : SplitResult W N
deriving DecidableEq

namespace BoundedStr

/-- Loop of `BoundedStr::split`.  `crash` models the two panics of the
source: the `unwrap` on a failed push and the out-of-range window slice
`data[i..i + delim.length]` when `i + delim.length > N`. -/
def splitAux (W N : Nat) (data : List Nat) (length : Nat) (delim : Str) :
    Nat → Nat → Nat → StrVec W N → SplitResult W N
  | 0, _, _, _ => .fuelOut
  | fuel + 1, start, i, acc =>
    if i < length then
      if N < i + delim.length then .crash
      else if slice data i (i + delim.length) = delim then
        match acc.push (slice (data.take length) start i) with
        | (acc2, none) =>
          splitAux W N data length delim fuel (i + delim.length) (i + delim.length) acc2
        | (_, some _) => .crash
      else splitAux W N data length delim fuel start (i + 1) acc
    else
      if start ≤ length then
        match acc.push (slice (data.take length) start length) with
        | (acc2, none) => .ok acc2
        | (_, some _) => .crash
      else .ok acc

/-- Model of `BoundedStr::split` into a vector with bitmap width `W`
(the width the compile-time resolver associates with capacity `N`).
The fuel `N + 2` is sufficient to reach the Rust loop's outcome for
every input: the cursor advances every iteration unless the delimiter is
empty, in which case the `unwrap` panic occurs within `N + 1`
iterations. -/
def split (W : Nat) {N : Nat} (b : BoundedStr N) (delimiter : Str) : SplitResult W N :=
  splitAux W N b.data b.length delimiter (N + 2) 0 0 (StrVec.new W N)

end BoundedStr

/-- Reachability of a `BoundedStr` through the public constructors and
mutators (`new`, `const_from`, `const_try_from`, `try_from`, `push`,
`push_str`); mutators are included on both their success and their
unchanged-on-error outcomes via the returned state. -/
inductive BReach (N : Nat) : BoundedStr N → Prop where
  | new : BReach N (BoundedStr.new N)
  | const_from {s : Str} {b : BoundedStr N} :
      BoundedStr.const_from N s = some b → BReach N b
  | const_try_from {s : Str} {b : BoundedStr N} :
      BoundedStr.const_try_from N s = some b → BReach N b
  | try_from {s : Str} {b : BoundedStr N} :
      BoundedStr.try_from N s = .ok b → BReach N b
  | push_str {b : BoundedStr N} (s : Str) :
      BReach N b → BReach N (b.push_str s).1
  | push {b : BoundedStr N} (c : Str) :
      BReach N b → BReach N (b.push c).1

/-! ## Fixed string (`fixed_str.rs`) -/

/-- Model of `FixedStr<N, Alignment>`: an `N`-byte NUL-padded buffer. -/
structure FixedStr (N : Nat) where
  data : List Nat
deriving DecidableEq

namespace FixedStr

/-- Model of `FixedStr::new`. -/
def new (N : Nat) : FixedStr N := { data := List.replicate N 0 }

/-- Model of `FixedStr::try_from`. -/
def try_from (N : Nat) (s : Str) : Except ExceedsCapacity (FixedStr N) :=
  if s.length > N then .error { length := s.length, capacity := N }
  else .ok { data := s ++ List.replicate (N - s.length) 0 }

/-- Model of `FixedStr::as_str`: the whole buffer. -/
def as_str {N : Nat} (f : FixedStr N) : Str := f.data

/-- Index of the first NUL byte, or the length if there is none
(`position(|b| b == 0).unwrap_or(len)`). -/
def firstNul : List Nat → Nat
  | [] => 0
  | b :: rest => if b = 0 then 0 else firstNul rest + 1

/-- Model of `FixedStr::as_str_trimmed`: the bytes before the first NUL. -/
def as_str_trimmed {N : Nat} (f : FixedStr N) : Str :=
  f.data.take (firstNul f.data)

end FixedStr

/-! ## Reference segmentation for `split` (from the specification text)

`refSegs s d` scans the string `s` left to right; on an exact match of
`d` at the cursor (the match lying inside the string) it ends the
current segment and jumps past the delimiter, otherwise it advances one
byte; the trailing segment is always produced. -/

/-- Scan loop of the reference segmentation. -/
def refSegsAux (s d : Str) : Nat → Nat → Nat → List Str
  | 0, _, _ => []
  | fuel + 1, start, i =>
    if i < s.length then
      if i + d.length ≤ s.length ∧ slice s i (i + d.length) = d then
        slice s start i :: refSegsAux s d fuel (i + d.length) (i + d.length)
      else refSegsAux s d fuel start (i + 1)
    else [slice s start s.length]

/-- Reference segmentation of `s` by a nonempty delimiter `d`. -/
def refSegs (s d : Str) : List Str := refSegsAux s d (s.length + 1) 0 0

/-! ## Bit-level lemmas -/

theorem shiftLeft_one (k : Nat) : 1 <<< k = 2 ^ k := by
  simp [Nat.shiftLeft_eq]

theorem testBit_set (W v p i : Nat) :
    (Bitmap.set W v p).testBit i = (v.testBit i || decide (i = W - 1 - p)) := by
  unfold Bitmap.set
  rw [Nat.testBit_lor, shiftLeft_one, Nat.testBit_two_pow]
  by_cases h : i = W - 1 - p
  · simp [h]
  · have h2 : ¬ (W - 1 - p = i) := fun hh => h hh.symm
    simp [h, h2]

theorem testBit_clearB (v b i : Nat) :
    (clearB v b).testBit i = (v.testBit i && !(decide (i = b))) := by
  unfold clearB
  by_cases hb : v.testBit b
  · rw [if_pos hb, Nat.testBit_xor, Nat.testBit_two_pow]
    by_cases h : i = b
    · subst h; simp [hb]
    · have h2 : ¬ (b = i) := fun hh => h hh.symm
      simp [h, h2]
  · rw [if_neg hb]
    by_cases h : i = b
    · subst h
      simp [Bool.not_eq_true] at hb
      simp [hb]
    · simp [h]

theorem testBit_ge_width (v W i : Nat) (hv : v < 2 ^ W) (hi : W ≤ i) :
    v.testBit i = false :=
  Nat.testBit_lt_two_pow
    (lt_of_lt_of_le hv (Nat.pow_le_pow_right (by norm_num) hi))

theorem unset_eq_clearB (W v p : Nat) (hv : v < 2 ^ W) :
    Bitmap.unset W v p = clearB v (W - 1 - p) := by
  apply Nat.eq_of_testBit_eq
  intro i
  unfold Bitmap.unset
  rw [Nat.testBit_land, Nat.testBit_xor, Nat.testBit_two_pow_sub_one,
    shiftLeft_one, Nat.testBit_two_pow, testBit_clearB]
  by_cases hiW : i < W
  · by_cases h : i = W - 1 - p
    · subst h; simp [hiW]
    · have h2 : ¬ (W - 1 - p = i) := fun hh => h hh.symm
      simp [hiW, h, h2]
  · have hz : v.testBit i = false := testBit_ge_width v W i hv (le_of_not_lt hiW)
    simp [hz]

theorem clearB_lt (v b W : Nat) (hv : v < 2 ^ W) : clearB v b < 2 ^ W := by
  unfold clearB
  by_cases h : v.testBit b
  · rw [if_pos h]
    have hb : b < W := by
      by_contra hb
      have h1 := Nat.testBit_implies_ge h
      have h2 : 2 ^ W ≤ 2 ^ b := Nat.pow_le_pow_right (by norm_num) (le_of_not_lt hb)
      omega
    exact Nat.xor_lt_two_pow hv (Nat.pow_lt_pow_right (by norm_num) hb)
  · rw [if_neg h]; exact hv

theorem eq_zero_of_testBit_false (v W : Nat) (hv : v < 2 ^ W)
    (h : ∀ i, i < W → v.testBit i = false) : v = 0 := by
  apply Nat.eq_of_testBit_eq
  intro i
  rw [Nat.zero_testBit]
  by_cases hi : i < W
  · exact h i hi
  · exact testBit_ge_width v W i hv (le_of_not_lt hi)

theorem exists_testBit_of_ne_zero (v W : Nat) (hv : v < 2 ^ W) (h : v ≠ 0) :
    ∃ i, i < W ∧ v.testBit i = true := by
  obtain ⟨i, hi⟩ := Nat.ne_zero_implies_bit_true h
  refine ⟨i, ?_, hi⟩
  by_contra hW
  have h1 := Nat.testBit_implies_ge hi
  have h2 : 2 ^ W ≤ 2 ^ i := Nat.pow_le_pow_right (by norm_num) (le_of_not_lt hW)
  omega

/-! ## Lemmas about `setPositions` and `leading_zeros` -/

theorem setPositionsAux_ge : ∀ (w v p : Nat) (q : Nat),
    q ∈ setPositionsAux w v p → p ≤ q := by
  intro w
  induction w with
  | zero => intro v p q hq; simp [setPositionsAux] at hq
  | succ w ih =>
    intro v p q hq
    unfold setPositionsAux at hq
    by_cases h : v.testBit w
    · rw [if_pos h] at hq
      rcases List.mem_cons.mp hq with h1 | h1
      · omega
      · have := ih v (p + 1) q h1; omega
    · rw [if_neg h] at hq
      have := ih v (p + 1) q hq; omega

theorem setPositionsAux_empty : ∀ (w v p : Nat),
    setPositionsAux w v p = [] ↔ ∀ i, i < w → v.testBit i = false := by
  intro w
  induction w with
  | zero => intro v p; simp [setPositionsAux]
  | succ w ih =>
    intro v p
    unfold setPositionsAux
    by_cases h : v.testBit w
    · rw [if_pos h]
      simp only [List.cons_ne_nil, false_iff]
      intro hall
      have := hall w (Nat.lt_succ_self w)
      rw [h] at this; exact Bool.true_eq_false.mp this
    · rw [if_neg h, ih v (p + 1)]
      constructor
      · intro hall i hi
        rcases Nat.lt_succ_iff_lt_or_eq.mp hi with h1 | h1
        · exact hall i h1
        · subst h1; exact Bool.not_eq_true _ |>.mp h
      · intro hall i hi
        exact hall i (Nat.lt_succ_of_lt hi)

theorem setPositionsAux_congr : ∀ (w p v v2 : Nat),
    (∀ i, i < w → v.testBit i = v2.testBit i) →
    setPositionsAux w v p = setPositionsAux w v2 p := by
  intro w
  induction w with
  | zero => intro p v v2 _; rfl
  | succ w ih =>
    intro p v v2 h
    unfold setPositionsAux
    rw [h w (Nat.lt_succ_self w),
      ih (p + 1) v v2 (fun i hi => h i (Nat.lt_succ_of_lt hi))]

theorem leading_zerosAux_lt : ∀ (w v : Nat),
    (∃ i, i < w ∧ v.testBit i = true) → Bitmap.leading_zerosAux w v < w := by
  intro w
  induction w with
  | zero => intro v h; obtain ⟨i, hi, _⟩ := h; omega
  | succ w ih =>
    intro v h
    unfold Bitmap.leading_zerosAux
    by_cases hw : v.testBit w
    · rw [if_pos hw]; omega
    · rw [if_neg hw]
      have h2 : ∃ i, i < w ∧ v.testBit i = true := by
        obtain ⟨i, hi, hb⟩ := h
        refine ⟨i, ?_, hb⟩
        rcases Nat.lt_succ_iff_lt_or_eq.mp hi with h1 | h1
        · exact h1
        · subst h1; rw [hb] at hw; exact absurd rfl hw
      have := ih v h2; omega

theorem testBit_leading_zerosAux : ∀ (w v : Nat),
    (∃ i, i < w ∧ v.testBit i = true) →
    v.testBit (w - 1 - Bitmap.leading_zerosAux w v) = true := by
  intro w
  induction w with
  | zero => intro v h; obtain ⟨i, hi, _⟩ := h; omega
  | succ w ih =>
    intro v h
    unfold Bitmap.leading_zerosAux
    by_cases hw : v.testBit w
    · rw [if_pos hw]; simpa using hw
    · rw [if_neg hw]
      have h2 : ∃ i, i < w ∧ v.testBit i = true := by
        obtain ⟨i, hi, hb⟩ := h
        refine ⟨i, ?_, hb⟩
        rcases Nat.lt_succ_iff_lt_or_eq.mp hi with h1 | h1
        · exact h1
        · subst h1; rw [hb] at hw; exact absurd rfl hw
      have hlt := leading_zerosAux_lt w v h2
      have := ih v h2
      have harith : w + 1 - 1 - (Bitmap.leading_zerosAux w v + 1)
          = w - 1 - Bitmap.leading_zerosAux w v := by omega
      rw [harith]
      exact this

theorem setPositionsAux_succ_true (w v p : Nat) (h : v.testBit w = true) :
    setPositionsAux (w + 1) v p = p :: setPositionsAux w v (p + 1) := by
  conv_lhs => unfold setPositionsAux
  rw [if_pos h]

theorem setPositionsAux_succ_false (w v p : Nat) (h : v.testBit w = false) :
    setPositionsAux (w + 1) v p = setPositionsAux w v (p + 1) := by
  conv_lhs => unfold setPositionsAux
  rw [if_neg (by simp [h])]

theorem leading_zerosAux_succ_true (w v : Nat) (h : v.testBit w = true) :
    Bitmap.leading_zerosAux (w + 1) v = 0 := by
  conv_lhs => unfold Bitmap.leading_zerosAux
  rw [if_pos h]

theorem leading_zerosAux_succ_false (w v : Nat) (h : v.testBit w = false) :
    Bitmap.leading_zerosAux (w + 1) v = Bitmap.leading_zerosAux w v + 1 := by
  conv_lhs => unfold Bitmap.leading_zerosAux
  rw [if_neg (by simp [h])]

theorem count_onesAux_succ (w v : Nat) :
    Bitmap.count_onesAux (w + 1) v =
      Bitmap.count_onesAux w v + (if v.testBit w then 1 else 0) := rfl

theorem exists_lower_of_top_false (w : Nat) (v : Nat) (hw : v.testBit w = false)
    (h : ∃ i, i < w + 1 ∧ v.testBit i = true) :
    ∃ i, i < w ∧ v.testBit i = true := by
  obtain ⟨i, hi, hb⟩ := h
  refine ⟨i, ?_, hb⟩
  rcases Nat.lt_succ_iff_lt_or_eq.mp hi with h1 | h1
  · exact h1
  · subst h1; rw [hb] at hw; exact absurd hw (by simp)

theorem setPositionsAux_decomp : ∀ (w v p : Nat),
    (∃ i, i < w ∧ v.testBit i = true) →
    setPositionsAux w v p =
      (p + Bitmap.leading_zerosAux w v) ::
        setPositionsAux w (clearB v (w - 1 - Bitmap.leading_zerosAux w v)) p := by
  intro w
  induction w with
  | zero => intro v p h; obtain ⟨i, hi, _⟩ := h; omega
  | succ w ih =>
    intro v p h
    by_cases hw : v.testBit w
    · have hz := leading_zerosAux_succ_true w v hw
      have hbit : (clearB v w).testBit w = false := by
        rw [testBit_clearB]; simp
      have harith : w + 1 - 1 - 0 = w := by omega
      rw [hz, harith, setPositionsAux_succ_true w v p hw,
        setPositionsAux_succ_false w (clearB v w) p hbit, Nat.add_zero]
      exact congrArg (p :: ·) (setPositionsAux_congr w (p + 1) v (clearB v w)
        (fun i hi => by rw [testBit_clearB]; simp [Nat.ne_of_lt hi]))
    · have hwf : v.testBit w = false := by simpa using hw
      have h2 := exists_lower_of_top_false w v hwf h
      have hc := leading_zerosAux_lt w v h2
      have hz := leading_zerosAux_succ_false w v hwf
      have harith : w + 1 - 1 - (Bitmap.leading_zerosAux w v + 1)
          = w - 1 - Bitmap.leading_zerosAux w v := by omega
      have hbit : (clearB v (w - 1 - Bitmap.leading_zerosAux w v)).testBit w = false := by
        rw [testBit_clearB, hwf]; simp
      rw [hz, harith, setPositionsAux_succ_false w v p hwf,
        setPositionsAux_succ_false w _ p hbit, ih v (p + 1) h2]
      have heq : (p + 1) + Bitmap.leading_zerosAux w v
          = p + (Bitmap.leading_zerosAux w v + 1) := by omega
      rw [heq]

theorem setPositionsAux_length : ∀ (w v p : Nat),
    (setPositionsAux w v p).length = Bitmap.count_onesAux w v := by
  intro w
  induction w with
  | zero => intro v p; rfl
  | succ w ih =>
    intro v p
    rw [count_onesAux_succ]
    by_cases h : v.testBit w
    · rw [setPositionsAux_succ_true w v p h, if_pos h]
      simp [ih v (p + 1)]
    · have hf : v.testBit w = false := by simpa using h
      rw [setPositionsAux_succ_false w v p hf, if_neg h, ih v (p + 1)]
      omega

theorem setPositionsAux_mem : ∀ (w v p q : Nat), q < w →
    ((p + q) ∈ setPositionsAux w v p ↔ v.testBit (w - 1 - q) = true) := by
  intro w
  induction w with
  | zero => intro v p q hq; omega
  | succ w ih =>
    intro v p q hq
    cases q with
    | zero =>
      have harith : w + 1 - 1 - 0 = w := by omega
      rw [harith, Nat.add_zero]
      by_cases h : v.testBit w
      · rw [setPositionsAux_succ_true w v p h]
        simp [h]
      · have hf : v.testBit w = false := by simpa using h
        rw [setPositionsAux_succ_false w v p hf]
        constructor
        · intro hmem
          have := setPositionsAux_ge w v (p + 1) p hmem; omega
        · intro hh; exact absurd hh h
    | succ q =>
      have harith : w + 1 - 1 - (q + 1) = w - 1 - q := by omega
      have hq2 : q < w := by omega
      have heq : p + (q + 1) = (p + 1) + q := by omega
      rw [harith, heq]
      by_cases h : v.testBit w
      · rw [setPositionsAux_succ_true w v p h, List.mem_cons]
        constructor
        · intro hc
          rcases hc with h1 | h1
          · omega
          · exact (ih v (p + 1) q hq2).mp h1
        · intro hb
          exact Or.inr ((ih v (p + 1) q hq2).mpr hb)
      · have hf : v.testBit w = false := by simpa using h
        rw [setPositionsAux_succ_false w v p hf]
        exact ih v (p + 1) q hq2

theorem setPositionsAux_or : ∀ (w p v b : Nat), b < w →
    (∀ i, i ≤ b → v.testBit i = false) →
    setPositionsAux w (v ||| 2 ^ b) p
      = setPositionsAux w v p ++ [p + (w - 1 - b)] := by
  intro w
  induction w with
  | zero => intro p v b hb _; omega
  | succ w ih =>
    intro p v b hb hlow
    have hor : ∀ i, (v ||| 2 ^ b).testBit i = (v.testBit i || decide (b = i)) := by
      intro i; rw [Nat.testBit_lor, Nat.testBit_two_pow]
    by_cases hbw : b = w
    · subst hbw
      have hvz : setPositionsAux b v (p + 1) = [] :=
        (setPositionsAux_empty b v (p + 1)).mpr (fun i hi => hlow i (by omega))
      have hvz2 : setPositionsAux (b + 1) v p = [] :=
        (setPositionsAux_empty (b + 1) v p).mpr (fun i hi => hlow i (by omega))
      have htop : (v ||| 2 ^ b).testBit b = true := by rw [hor]; simp
      have hcong : setPositionsAux b (v ||| 2 ^ b) (p + 1)
          = setPositionsAux b v (p + 1) :=
        setPositionsAux_congr b (p + 1) _ v
          (fun i hi => by rw [hor]; simp [Nat.ne_of_gt hi])
      rw [setPositionsAux_succ_true b _ p htop, hcong, hvz, hvz2]
      simp
    · have hbw2 : b < w := by omega
      have hors : (v ||| 2 ^ b).testBit w = v.testBit w := by
        rw [hor]; simp [hbw]
      have harith : (p + 1) + (w - 1 - b) = p + (w + 1 - 1 - b) := by omega
      by_cases h : v.testBit w
      · rw [setPositionsAux_succ_true w v p h,
          setPositionsAux_succ_true w _ p (by rw [hors]; exact h),
          ih (p + 1) v b hbw2 hlow, harith]
        rfl
      · have hf : v.testBit w = false := by simpa using h
        rw [setPositionsAux_succ_false w v p hf,
          setPositionsAux_succ_false w _ p (by rw [hors]; exact hf),
          ih (p + 1) v b hbw2 hlow, harith]

/-! ## Lemmas about `trailing_zeros` -/

theorem trailing_zeros_zero : ∀ (W : Nat), Bitmap.trailing_zeros W 0 = W := by
  intro W
  induction W with
  | zero => rfl
  | succ w ih =>
    unfold Bitmap.trailing_zeros
    simp [ih]

theorem trailing_zeros_spec : ∀ (W v m : Nat), v < 2 ^ W → v.testBit m = true →
    (∀ i, i < m → v.testBit i = false) → Bitmap.trailing_zeros W v = m := by
  intro W
  induction W with
  | zero =>
    intro v m hv hm _
    have hz : v = 0 := by simpa using hv
    subst hz
    rw [Nat.zero_testBit] at hm
    exact absurd hm (by simp)
  | succ w ih =>
    intro v m hv hm hlow
    unfold Bitmap.trailing_zeros
    cases m with
    | zero =>
      rw [Nat.testBit_zero] at hm
      rw [if_pos (of_decide_eq_true hm)]
    | succ m =>
      have h0 : v.testBit 0 = false := hlow 0 (Nat.succ_pos m)
      rw [Nat.testBit_zero] at h0
      rw [if_neg (of_decide_eq_false h0)]
      have hpow : 2 ^ (w + 1) = 2 ^ w * 2 := by rw [Nat.pow_succ]
      have hv2 : v / 2 < 2 ^ w := by omega
      have hm2 : (v / 2).testBit m = true := by
        rw [← Nat.testBit_succ]; exact hm
      have hlow2 : ∀ i, i < m → (v / 2).testBit i = false := by
        intro i hi
        rw [← Nat.testBit_succ]
        exact hlow (i + 1) (by omega)
      rw [ih (v / 2) m hv2 hm2 hlow2]

/-! ## `find_nth_span` against the positions view -/

theorem count_onesAux_le : ∀ (w v : Nat), Bitmap.count_onesAux w v ≤ w := by
  intro w
  induction w with
  | zero => intro v; exact Nat.le_refl 0
  | succ w ih =>
    intro v
    rw [count_onesAux_succ]
    have := ih v
    by_cases h : v.testBit w <;> simp [h] <;> omega

theorem setPositions_decomp (W v : Nat) (hv : v < 2 ^ W) (hz : v ≠ 0) :
    setPositions W v =
      Bitmap.leading_zeros W v ::
        setPositions W (Bitmap.unset W v (Bitmap.leading_zeros W v)) := by
  have hex := exists_testBit_of_ne_zero v W hv hz
  have hdec := setPositionsAux_decomp W v 0 hex
  rw [show Bitmap.unset W v (Bitmap.leading_zeros W v)
      = clearB v (W - 1 - Bitmap.leading_zeros W v) from unset_eq_clearB W v _ hv]
  unfold setPositions Bitmap.leading_zeros
  rw [hdec, Nat.zero_add]

theorem unset_lt (W v p : Nat) (hv : v < 2 ^ W) : Bitmap.unset W v p < 2 ^ W := by
  rw [unset_eq_clearB W v p hv]
  exact clearB_lt v _ W hv

theorem spansOfPositions_length : ∀ (ps : List Nat) (start : Nat),
    (spansOfPositions start ps).length = ps.length := by
  intro ps
  induction ps with
  | nil => intro start; rfl
  | cons p ps ih => intro start; simp [spansOfPositions, ih]

theorem spansOfPositions_get : ∀ (ps : List Nat) (start n : Nat), n < ps.length →
    (spansOfPositions start ps)[n]? =
      some (if n = 0 then start else ps.getD (n - 1) 0 + 1, ps.getD n 0 + 1) := by
  intro ps
  induction ps with
  | nil => intro start n hn; simp at hn
  | cons p ps ih =>
    intro start n hn
    rw [show spansOfPositions start (p :: ps)
        = (start, p + 1) :: spansOfPositions (p + 1) ps from rfl]
    cases n with
    | zero => simp
    | succ n =>
      have hn2 : n < ps.length := by simpa using hn
      rw [List.getElem?_cons_succ, ih (p + 1) n hn2]
      cases n with
      | zero => simp
      | succ m => simp

theorem find_nth_spanAux_succ (W n fuel value start count : Nat) :
    Bitmap.find_nth_spanAux W n (fuel + 1) value start count =
      if value = 0 then none
      else if count = n then some (start, Bitmap.leading_zeros W value + 1)
      else Bitmap.find_nth_spanAux W n fuel
        (Bitmap.unset W value (Bitmap.leading_zeros W value))
        (Bitmap.leading_zeros W value + 1) (count + 1) := by
  conv_lhs => unfold Bitmap.find_nth_spanAux

theorem find_nth_spanAux_eq (W n : Nat) : ∀ (fuel v start count : Nat),
    v < 2 ^ W → (setPositions W v).length < fuel → count ≤ n →
    Bitmap.find_nth_spanAux W n fuel v start count =
      (spansOfPositions start (setPositions W v))[n - count]? := by
  intro fuel
  induction fuel with
  | zero => intro v start count _ hl _; omega
  | succ fuel ih =>
    intro v start count hv hl hcn
    rw [find_nth_spanAux_succ]
    by_cases hz : v = 0
    · subst hz
      have hps : setPositions W 0 = [] :=
        (setPositionsAux_empty W 0 0).mpr (fun i _ => Nat.zero_testBit i)
      rw [if_pos rfl, hps]
      simp [spansOfPositions]
    · rw [if_neg hz]
      have hdec := setPositions_decomp W v hv hz
      by_cases hc : count = n
      · subst hc
        rw [if_pos rfl, Nat.sub_self, hdec]
        rw [show spansOfPositions start
            (Bitmap.leading_zeros W v ::
              setPositions W (Bitmap.unset W v (Bitmap.leading_zeros W v)))
            = (start, Bitmap.leading_zeros W v + 1) ::
              spansOfPositions (Bitmap.leading_zeros W v + 1)
                (setPositions W (Bitmap.unset W v (Bitmap.leading_zeros W v)))
            from rfl]
        rw [List.getElem?_cons_zero]
      · rw [if_neg hc]
        have hlt : count < n := by omega
        have hv2 : Bitmap.unset W v (Bitmap.leading_zeros W v) < 2 ^ W :=
          unset_lt W v _ hv
        have hlen : (setPositions W
            (Bitmap.unset W v (Bitmap.leading_zeros W v))).length < fuel := by
          have h1 : (setPositions W v).length
              = (setPositions W
                  (Bitmap.unset W v (Bitmap.leading_zeros W v))).length + 1 := by
            rw [hdec]; rfl
          omega
        rw [ih _ _ _ hv2 hlen (by omega), hdec]
        rw [show spansOfPositions start
            (Bitmap.leading_zeros W v ::
              setPositions W (Bitmap.unset W v (Bitmap.leading_zeros W v)))
            = (start, Bitmap.leading_zeros W v + 1) ::
              spansOfPositions (Bitmap.leading_zeros W v + 1)
                (setPositions W (Bitmap.unset W v (Bitmap.leading_zeros W v)))
            from rfl]
        have hsub : n - count = (n - (count + 1)) + 1 := by omega
        rw [hsub, List.getElem?_cons_succ]

/-- C7: for every bitmap value `v < 2 ^ W` and every `n`, scanning from
position 0 with each set bit ending a span, `find_nth_span n` returns
`some (start, end)` where `end` is one past the position of the `n`-th
set bit and `start` is one past the previous set bit's position (0 for
the first span); it returns `none` exactly when the bitmap has fewer
than `n + 1` set bits. -/
theorem find_nth_span_spec (W v n : Nat) (hv : v < 2 ^ W) :
    (setPositions W v).length = Bitmap.count_ones W v ∧
    (Bitmap.count_ones W v ≤ n → Bitmap.find_nth_span W v n = none) ∧
    (n < Bitmap.count_ones W v →
      Bitmap.find_nth_span W v n =
        some (if n = 0 then 0 else (setPositions W v).getD (n - 1) 0 + 1,
              (setPositions W v).getD n 0 + 1)) := by
  have hlen : (setPositions W v).length = Bitmap.count_ones W v :=
    setPositionsAux_length W v 0
  have hfuel : (setPositions W v).length < W + 1 := by
    have := count_onesAux_le W v
    have h2 : Bitmap.count_ones W v = Bitmap.count_onesAux W v := rfl
    omega
  have hmain := find_nth_spanAux_eq W n (W + 1) v 0 0 hv hfuel (Nat.zero_le n)
  refine ⟨hlen, ?_, ?_⟩
  · intro hge
    unfold Bitmap.find_nth_span
    rw [hmain, Nat.sub_zero]
    apply List.getElem?_eq_none
    rw [spansOfPositions_length]
    omega
  · intro hlt
    unfold Bitmap.find_nth_span
    rw [hmain, Nat.sub_zero, spansOfPositions_get _ 0 n (by omega)]

/-- Witness for C7 at `W = 8`, `v = 72` (spans `ab`, `cde`), `n = 1`. -/
theorem find_nth_span_spec_witness :
    72 < 2 ^ 8 ∧
    ((setPositions 8 72).length = Bitmap.count_ones 8 72 ∧
     (Bitmap.count_ones 8 72 ≤ 1 → Bitmap.find_nth_span 8 72 1 = none) ∧
     (1 < Bitmap.count_ones 8 72 →
       Bitmap.find_nth_span 8 72 1 =
         some (if (1 : Nat) = 0 then 0 else (setPositions 8 72).getD 0 0 + 1,
               (setPositions 8 72).getD 1 0 + 1))) :=
  ⟨by decide, find_nth_span_spec 8 72 1 (by decide)⟩

/-! ## Helper lemmas about items, lengths and bounds -/

theorem totalLen_nil : totalLen [] = 0 := rfl

theorem totalLen_cons (it : Str) (items : List Str) :
    totalLen (it :: items) = it.length + totalLen items := by
  simp [totalLen]

theorem totalLen_append (a b : List Str) :
    totalLen (a ++ b) = totalLen a + totalLen b := by
  simp [totalLen]

theorem totalLen_replicate_single (j : Nat) :
    totalLen (List.replicate j [0]) = j := by
  induction j with
  | zero => rfl
  | succ j ih =>
    rw [List.replicate_succ, totalLen_cons, ih]
    simp only [List.length_cons, List.length_nil]
    omega

theorem storedRepr_ne_nil (s : Str) : storedRepr s ≠ [] := by
  unfold storedRepr
  by_cases h : s = [] <;> simp [h]

theorem storedRepr_length (s : Str) : (storedRepr s).length = max 1 s.length := by
  unfold storedRepr
  by_cases h : s = []
  · simp [h]
  · have : 0 < s.length := List.length_pos.mpr h
    simp [h]
    omega

theorem decodeSpan_storedRepr (s : Str) : decodeSpan (storedRepr s) = collapse s := by
  unfold decodeSpan storedRepr collapse
  by_cases h : s = []
  · simp [h]
  · by_cases h2 : s = [0] <;> simp [h, h2]

theorem totalLen_pos (items : List Str) (h : items ≠ [])
    (hne : ∀ it ∈ items, it ≠ []) : 0 < totalLen items := by
  cases items with
  | nil => exact absurd rfl h
  | cons it rest =>
    rw [totalLen_cons]
    have : it ≠ [] := hne it (List.mem_cons_self it rest)
    have : 0 < it.length := List.length_pos.mpr this
    omega

theorem boundsAux_length : ∀ (items : List Str) (off : Nat),
    (boundsAux off items).length = items.length := by
  intro items
  induction items with
  | nil => intro off; rfl
  | cons it rest ih => intro off; simp [boundsAux, ih]

theorem boundsAux_lt : ∀ (items : List Str) (off : Nat),
    (∀ it ∈ items, it ≠ []) →
    ∀ q ∈ boundsAux off items, q < off + totalLen items := by
  intro items
  induction items with
  | nil => intro off _ q hq; simp [boundsAux] at hq
  | cons it rest ih =>
    intro off hne q hq
    rw [boundsAux] at hq
    have hpos : 0 < it.length :=
      List.length_pos.mpr (hne it (List.mem_cons_self it rest))
    rcases List.mem_cons.mp hq with h1 | h1
    · rw [totalLen_cons]; omega
    · have := ih (off + it.length) (fun x hx => hne x (List.mem_cons_of_mem it hx)) q h1
      rw [totalLen_cons]; omega

theorem boundsAux_last_mem : ∀ (items : List Str) (off : Nat), items ≠ [] →
    (off + totalLen items - 1) ∈ boundsAux off items := by
  intro items
  induction items with
  | nil => intro off h; exact absurd rfl h
  | cons it rest ih =>
    intro off _
    rw [boundsAux]
    cases hrest : rest with
    | nil =>
      subst hrest
      rw [totalLen_cons, totalLen_nil]
      simp
    | cons r rs =>
      have hne : rest ≠ [] := by rw [hrest]; simp
      rw [← hrest]
      have := ih (off + it.length) hne
      rw [totalLen_cons]
      have harith : off + it.length + totalLen rest - 1
          = off + (it.length + totalLen rest) - 1 := by omega
      rw [harith] at this
      exact List.mem_cons_of_mem _ this

theorem boundsAux_append : ∀ (items : List Str) (off : Nat) (it : Str),
    boundsAux off (items ++ [it])
      = boundsAux off items ++ [off + totalLen items + it.length - 1] := by
  intro items
  induction items with
  | nil => intro off it; simp [boundsAux, totalLen_nil]
  | cons x rest ih =>
    intro off it
    rw [List.cons_append, boundsAux, boundsAux, ih (off + x.length) it,
      totalLen_cons, List.cons_append]
    have harith : off + x.length + totalLen rest + it.length - 1
        = off + (x.length + totalLen rest) + it.length - 1 := by omega
    rw [harith]

theorem flatten_length : ∀ (items : List Str),
    items.flatten.length = totalLen items := by
  intro items
  induction items with
  | nil => rfl
  | cons it rest ih =>
    rw [List.flatten_cons, List.length_append, ih, totalLen_cons]

theorem drop_replicate_releq (k n : Nat) (a : Nat) :
    (List.replicate n a).drop k = List.replicate (n - k) a := by
  induction n generalizing k with
  | zero => simp
  | succ n ih =>
    cases k with
    | zero => simp
    | succ k =>
      rw [List.replicate_succ, List.drop_succ_cons, ih k]
      have : n + 1 - (k + 1) = n - k := by omega
      rw [this]

/-! ## The `StrVec` representation invariant -/

theorem set_eq_or (W v p : Nat) : Bitmap.set W v p = v ||| 2 ^ (W - 1 - p) := by
  unfold Bitmap.set
  rw [shiftLeft_one]

theorem strVecInv_nil (W N : Nat) (hNW : N ≤ W) : StrVecInv (StrVec.new W N) [] := by
  refine ⟨hNW, by simp, by simp [totalLen], Nat.two_pow_pos W, ?_, ?_⟩
  · exact (setPositionsAux_empty W 0 0).mpr (fun i _ => Nat.zero_testBit i)
  · simp [StrVec.new, totalLen]

theorem strVecInv_testBit_false {W N : Nat} {v : StrVec W N} {items : List Str}
    (h : StrVecInv v items) :
    ∀ i, i < W → totalLen items ≤ W - 1 - i → v.bitmap.testBit i = false := by
  obtain ⟨hNW, hne, htot, hv, hset, _⟩ := h
  intro i hi hq
  by_contra hb
  have hbt : v.bitmap.testBit i = true := by
    cases hbool : v.bitmap.testBit i
    · exact absurd hbool hb
    · rfl
  have harith : W - 1 - (W - 1 - i) = i := by omega
  have hmem := setPositionsAux_mem W v.bitmap 0 (W - 1 - i) (by omega)
  rw [Nat.zero_add, harith] at hmem
  have hmem2 : (W - 1 - i) ∈ setPositions W v.bitmap := hmem.mpr hbt
  rw [hset] at hmem2
  have := boundsAux_lt items 0 hne (W - 1 - i) hmem2
  omega

theorem strVecInv_next_offset {W N : Nat} {v : StrVec W N} {items : List Str}
    (h : StrVecInv v items) : v.next_offset = totalLen items := by
  obtain ⟨hNW, hne, htot, hv, hset, hdata⟩ := h
  unfold StrVec.next_offset
  by_cases hit : items = []
  · subst hit
    have hempty : ∀ i, i < W → v.bitmap.testBit i = false :=
      (setPositionsAux_empty W v.bitmap 0).mp hset
    have hz : v.bitmap = 0 := eq_zero_of_testBit_false v.bitmap W hv hempty
    rw [hz, trailing_zeros_zero]
    rw [totalLen_nil]
    omega
  · have hpos : 0 < totalLen items := totalLen_pos items hit hne
    have hmemb : (totalLen items - 1) ∈ bounds items := by
      have := boundsAux_last_mem items 0 hit
      simpa using this
    have hqW : totalLen items - 1 < W := by omega
    have hbit : v.bitmap.testBit (W - totalLen items) = true := by
      have hmem := setPositionsAux_mem W v.bitmap 0 (totalLen items - 1) hqW
      rw [Nat.zero_add] at hmem
      have harith : W - 1 - (totalLen items - 1) = W - totalLen items := by omega
      rw [harith] at hmem
      apply hmem.mp
      rw [show setPositionsAux W v.bitmap 0 = setPositions W v.bitmap from rfl, hset]
      exact hmemb
    have hlow : ∀ i, i < W - totalLen items → v.bitmap.testBit i = false := by
      intro i hi
      exact strVecInv_testBit_false ⟨hNW, hne, htot, hv, hset, hdata⟩ i (by omega) (by omega)
    rw [trailing_zeros_spec W v.bitmap (W - totalLen items) hv hbit hlow]
    omega

theorem push_eq {W N : Nat} (v : StrVec W N) (s : Str) :
    v.push s =
      (if v.next_offset + (storedRepr s).length > N then
        (v, some { length := v.next_offset + (storedRepr s).length, capacity := N })
      else
        ({ bitmap := Bitmap.set W v.bitmap (v.next_offset + (storedRepr s).length - 1),
           data := StrVec.writeSlice v.data v.next_offset (storedRepr s) }, none)) := rfl

theorem strVecInv_push {W N : Nat} {v : StrVec W N} {items : List Str}
    (h : StrVecInv v items) (s : Str) :
    (N < totalLen items + (storedRepr s).length →
      v.push s = (v, some { length := totalLen items + (storedRepr s).length,
                            capacity := N })) ∧
    (totalLen items + (storedRepr s).length ≤ N →
      v.push s =
        ({ bitmap := Bitmap.set W v.bitmap
              (totalLen items + (storedRepr s).length - 1),
           data := StrVec.writeSlice v.data (totalLen items) (storedRepr s) },
          none) ∧
      StrVecInv (v.push s).1 (items ++ [storedRepr s])) := by
  have hoff := strVecInv_next_offset h
  obtain ⟨hNW, hne, htot, hv, hset, hdata⟩ := h
  constructor
  · intro hgt
    rw [push_eq, hoff, if_pos (by omega)]
  · intro hle
    have heq : v.push s =
        ({ bitmap := Bitmap.set W v.bitmap
              (totalLen items + (storedRepr s).length - 1),
           data := StrVec.writeSlice v.data (totalLen items) (storedRepr s) },
          none) := by
      rw [push_eq, hoff, if_neg (by omega)]
    refine ⟨heq, ?_⟩
    rw [heq]
    have hl1 : 1 ≤ (storedRepr s).length := by
      have := storedRepr_ne_nil s
      have := List.length_pos.mpr this
      omega
    have hW1 : 1 ≤ W := by omega
    set l := (storedRepr s).length with hldef
    set T := totalLen items with hTdef
    have hTl : T + l ≤ W := by omega
    refine ⟨hNW, ?_, ?_, ?_, ?_, ?_⟩
    · intro it hit
      rcases List.mem_append.mp hit with h1 | h1
      · exact hne it h1
      · rw [List.mem_singleton.mp h1]; exact storedRepr_ne_nil s
    · rw [totalLen_append, totalLen_cons, totalLen_nil]; omega
    · rw [set_eq_or]
      apply Nat.or_lt_two_pow hv
      exact Nat.pow_lt_pow_right (by norm_num) (by omega)
    · rw [set_eq_or]
      have hb : W - 1 - (T + l - 1) < W := by omega
      have hlowbits : ∀ i, i ≤ W - 1 - (T + l - 1) → v.bitmap.testBit i = false := by
        intro i hi
        exact strVecInv_testBit_false ⟨hNW, hne, htot, hv, hset, hdata⟩ i
          (by omega) (by omega)
      have := setPositionsAux_or W 0 v.bitmap (W - 1 - (T + l - 1)) hb hlowbits
      rw [show setPositions W (v.bitmap ||| 2 ^ (W - 1 - (T + l - 1)))
          = setPositionsAux W (v.bitmap ||| 2 ^ (W - 1 - (T + l - 1))) 0 from rfl,
        this]
      rw [show setPositionsAux W v.bitmap 0 = setPositions W v.bitmap from rfl, hset]
      rw [show bounds (items ++ [storedRepr s]) = boundsAux 0 (items ++ [storedRepr s])
          from rfl, boundsAux_append items 0 (storedRepr s)]
      rw [show boundsAux 0 items = bounds items from rfl]
      have harith : 0 + (W - 1 - (W - 1 - (T + l - 1))) = 0 + T + l - 1 := by omega
      rw [harith]
    · unfold StrVec.writeSlice
      rw [hdata]
      have hfl : items.flatten.length = T := flatten_length items
      rw [List.take_left' hfl]
      have hdrop : (items.flatten ++ List.replicate (N - T) 0).drop (T + l)
          = List.replicate (N - T - l) 0 := by
        rw [← List.drop_drop, List.drop_left' hfl, drop_replicate_releq]
      rw [hdrop]
      rw [List.flatten_append, List.flatten_cons, List.flatten_nil, List.append_nil]
      rw [totalLen_append, totalLen_cons, totalLen_nil]
      rw [List.append_assoc]
      have harith2 : N - (T + (l + 0)) = N - T - l := by omega
      rw [harith2]
      simp [List.append_assoc]

theorem try_fromAux_cons {W N : Nat} (v : StrVec W N) (s : Str) (ss : List Str) :
    StrVec.try_fromAux v (s :: ss) =
      match v.push s with
      | (v2, none) => StrVec.try_fromAux v2 ss
      | (_, some e) => .error e := by
  conv_lhs => unfold StrVec.try_fromAux

theorem try_fromAux_inv {W N : Nat} : ∀ (ss : List Str) (v : StrVec W N)
    (items : List Str), StrVecInv v items →
    (totalLen items + totalLen (ss.map storedRepr) ≤ N →
      ∃ v2, StrVec.try_fromAux v ss = .ok v2 ∧
        StrVecInv v2 (items ++ ss.map storedRepr)) ∧
    (N < totalLen items + totalLen (ss.map storedRepr) →
      ∃ e, StrVec.try_fromAux v ss = .error e ∧ e.capacity = N ∧ N < e.length) := by
  intro ss
  induction ss with
  | nil =>
    intro v items hinv
    constructor
    · intro _
      exact ⟨v, rfl, by simpa using hinv⟩
    · intro hgt
      have := hinv.2.2.1
      rw [List.map_nil, totalLen_nil] at hgt
      omega
  | cons s ss ih =>
    intro v items hinv
    have hpush := strVecInv_push hinv s
    rw [List.map_cons, totalLen_cons]
    by_cases hfits : totalLen items + (storedRepr s).length ≤ N
    · obtain ⟨heq, hinv2⟩ := hpush.2 hfits
      have hstep : StrVec.try_fromAux v (s :: ss)
          = StrVec.try_fromAux (v.push s).1 ss := by
        rw [try_fromAux_cons, heq]
      have hrec := ih (v.push s).1 (items ++ [storedRepr s]) hinv2
      have htitems : totalLen (items ++ [storedRepr s])
          = totalLen items + (storedRepr s).length := by
        rw [totalLen_append, totalLen_cons, totalLen_nil]
        omega
      constructor
      · intro hle
        obtain ⟨v2, hok, hinv3⟩ := hrec.1 (by omega)
        refine ⟨v2, by rw [hstep]; exact hok, ?_⟩
        rw [List.append_assoc] at hinv3
        simpa using hinv3
      · intro hgt
        obtain ⟨e, herr, hcap, hlen⟩ := hrec.2 (by omega)
        exact ⟨e, by rw [hstep]; exact herr, hcap, hlen⟩
    · have herr := hpush.1 (by omega)
      have hstep : StrVec.try_fromAux v (s :: ss)
          = .error { length := totalLen items + (storedRepr s).length,
                     capacity := N } := by
        rw [try_fromAux_cons, herr]
      constructor
      · intro hle
        have : 0 ≤ totalLen (ss.map storedRepr) := Nat.zero_le _
        omega
      · intro _
        exact ⟨_, hstep, rfl, by simp; omega⟩

theorem try_from_inv {W N : Nat} (ss : List Str) (v : StrVec W N) (hNW : N ≤ W)
    (h : StrVec.try_from W N ss = .ok v) : StrVecInv v (ss.map storedRepr) := by
  have hbase := try_fromAux_inv ss (StrVec.new W N) [] (strVecInv_nil W N hNW)
  by_cases hle : totalLen ([] : List Str) + totalLen (ss.map storedRepr) ≤ N
  · obtain ⟨v2, hok, hinv⟩ := hbase.1 hle
    unfold StrVec.try_from at h
    rw [hok] at h
    injection h with h2
    rw [← h2]
    simpa using hinv
  · obtain ⟨e, herr, _, _⟩ := hbase.2 (by omega)
    unfold StrVec.try_from at h
    rw [herr] at h
    exact absurd h (by simp)

/-! ## Reading a `StrVec` back through the invariant -/

theorem strVecInv_len {W N : Nat} {v : StrVec W N} {items : List Str}
    (h : StrVecInv v items) : v.len = items.length := by
  obtain ⟨_, _, _, _, hset, _⟩ := h
  unfold StrVec.len
  have h1 : (setPositions W v.bitmap).length = Bitmap.count_onesAux W v.bitmap :=
    setPositionsAux_length W v.bitmap 0
  rw [show Bitmap.count_ones W v.bitmap = Bitmap.count_onesAux W v.bitmap from rfl,
    ← h1, hset]
  rw [show bounds items = boundsAux 0 items from rfl, boundsAux_length]

theorem find_nth_span_eq_spans (W bm i : Nat) (hv : bm < 2 ^ W) :
    Bitmap.find_nth_span W bm i
      = (spansOfPositions 0 (setPositions W bm))[i]? := by
  unfold Bitmap.find_nth_span
  have h1 : (setPositions W bm).length = Bitmap.count_onesAux W bm :=
    setPositionsAux_length W bm 0
  have h2 := count_onesAux_le W bm
  rw [find_nth_spanAux_eq W i (W + 1) bm 0 0 hv (by omega) (Nat.zero_le i),
    Nat.sub_zero]

theorem spansOfPositions_boundsAux_get : ∀ (items : List Str) (off i : Nat),
    (∀ it ∈ items, it ≠ []) → i < items.length →
    (spansOfPositions off (boundsAux off items))[i]? =
      some (off + totalLen (items.take i), off + totalLen (items.take (i + 1))) := by
  intro items
  induction items with
  | nil => intro off i _ hi; simp at hi
  | cons it tl ih =>
    intro off i hne hi
    have hl1 : 1 ≤ it.length :=
      List.length_pos.mpr (hne it (List.mem_cons_self it tl))
    rw [show boundsAux off (it :: tl)
        = (off + it.length - 1) :: boundsAux (off + it.length) tl from rfl]
    rw [show spansOfPositions off ((off + it.length - 1) :: boundsAux (off + it.length) tl)
        = (off, off + it.length - 1 + 1) ::
          spansOfPositions (off + it.length - 1 + 1) (boundsAux (off + it.length) tl)
        from rfl]
    have harith : off + it.length - 1 + 1 = off + it.length := by omega
    rw [harith]
    cases i with
    | zero =>
      rw [List.getElem?_cons_zero]
      simp [totalLen_cons, totalLen_nil]
    | succ i =>
      have hi2 : i < tl.length := by simpa using hi
      rw [List.getElem?_cons_succ,
        ih (off + it.length) i (fun x hx => hne x (List.mem_cons_of_mem it hx)) hi2]
      rw [show (it :: tl).take (i + 1) = it :: tl.take i from rfl,
        show (it :: tl).take (i + 1 + 1) = it :: tl.take (i + 1) from rfl,
        totalLen_cons, totalLen_cons]
      have e1 : off + it.length + totalLen (tl.take i)
          = off + (it.length + totalLen (tl.take i)) := by omega
      have e2 : off + it.length + totalLen (tl.take (i + 1))
          = off + (it.length + totalLen (tl.take (i + 1))) := by omega
      rw [e1, e2]

theorem slice_flatten : ∀ (items : List Str) (i : Nat) (rest : List Nat),
    i < items.length →
    slice (items.flatten ++ rest) (totalLen (items.take i))
        (totalLen (items.take (i + 1)))
      = items.getD i [] := by
  intro items
  induction items with
  | nil => intro i rest hi; simp at hi
  | cons it tl ih =>
    intro i rest hi
    rw [List.flatten_cons, List.append_assoc]
    cases i with
    | zero =>
      rw [show (it :: tl).take 0 = [] from rfl,
        show (it :: tl).take 1 = [it] from rfl]
      rw [totalLen_nil, totalLen_cons, totalLen_nil]
      unfold slice
      rw [List.drop_zero, Nat.sub_zero]
      rw [List.take_left' (by omega)]
      rfl
    | succ i =>
      have hi2 : i < tl.length := by simpa using hi
      rw [show (it :: tl).take (i + 1) = it :: tl.take i from rfl,
        show (it :: tl).take (i + 1 + 1) = it :: tl.take (i + 1) from rfl,
        totalLen_cons, totalLen_cons]
      unfold slice
      have hdrop : (it ++ (tl.flatten ++ rest)).drop (it.length + totalLen (tl.take i))
          = (tl.flatten ++ rest).drop (totalLen (tl.take i)) := by
        rw [List.drop_add, List.drop_left]
      rw [hdrop]
      have harith : it.length + totalLen (tl.take (i + 1))
          - (it.length + totalLen (tl.take i))
          = totalLen (tl.take (i + 1)) - totalLen (tl.take i) := by omega
      rw [harith]
      have := ih i rest hi2
      unfold slice at this
      rw [this]
      rfl

theorem strVecInv_get {W N : Nat} {v : StrVec W N} {items : List Str}
    (h : StrVecInv v items) (i : Nat) :
    (i < items.length → v.get i = some (decodeSpan (items.getD i []))) ∧
    (items.length ≤ i → v.get i = none) := by
  obtain ⟨hNW, hne, htot, hv, hset, hdata⟩ := h
  unfold StrVec.get
  rw [find_nth_span_eq_spans W v.bitmap i hv, hset]
  constructor
  · intro hi
    rw [show bounds items = boundsAux 0 items from rfl,
      spansOfPositions_boundsAux_get items 0 i hne hi]
    rw [Nat.zero_add, Nat.zero_add]
    dsimp only
    rw [hdata, slice_flatten items i _ hi]
    unfold decodeSpan
    by_cases hsp : items.getD i [] = [0]
    · rw [if_pos hsp, if_pos hsp]
    · rw [if_neg hsp, if_neg hsp]
  · intro hi
    have hlen : (spansOfPositions 0 (bounds items)).length = items.length := by
      rw [spansOfPositions_length,
        show bounds items = boundsAux 0 items from rfl, boundsAux_length]
    rw [List.getElem?_eq_none (by omega)]

theorem iterAux_spec {W : Nat} : ∀ (items : List Str) (pre post : List Nat)
    (bm : Nat), bm < 2 ^ W → (∀ it ∈ items, it ≠ []) →
    setPositions W bm = boundsAux pre.length items →
    StrVec.iterAux W (pre ++ items.flatten ++ post) items.length pre.length bm
      = items.map decodeSpan := by
  intro items
  induction items with
  | nil => intro pre post bm _ _ _; rfl
  | cons it tl ih =>
    intro pre post bm hv hne hset
    have hl1 : 1 ≤ it.length :=
      List.length_pos.mpr (hne it (List.mem_cons_self it tl))
    have hbm : bm ≠ 0 := by
      intro hz
      subst hz
      have : setPositions W 0 = [] :=
        (setPositionsAux_empty W 0 0).mpr (fun j _ => Nat.zero_testBit j)
      rw [this] at hset
      rw [show boundsAux pre.length (it :: tl)
          = (pre.length + it.length - 1) :: boundsAux (pre.length + it.length) tl
          from rfl] at hset
      exact absurd hset (by simp)
    have hdec := setPositions_decomp W bm hv hbm
    rw [hset] at hdec
    rw [show boundsAux pre.length (it :: tl)
        = (pre.length + it.length - 1) :: boundsAux (pre.length + it.length) tl
        from rfl] at hdec
    have hpair := (List.cons.injEq _ _ _ _).mp hdec
    have hhead : Bitmap.leading_zeros W bm = pre.length + it.length - 1 :=
      hpair.1.symm
    have htail : setPositions W (Bitmap.unset W bm (Bitmap.leading_zeros W bm))
        = boundsAux (pre.length + it.length) tl := hpair.2.symm
    rw [show (it :: tl).length = tl.length + 1 from rfl]
    rw [show StrVec.iterAux W (pre ++ (it :: tl).flatten ++ post)
          (tl.length + 1) pre.length bm
        = (if slice (pre ++ (it :: tl).flatten ++ post) pre.length
              (Bitmap.leading_zeros W bm + 1) = [0]
           then []
           else slice (pre ++ (it :: tl).flatten ++ post) pre.length
              (Bitmap.leading_zeros W bm + 1)) ::
          StrVec.iterAux W (pre ++ (it :: tl).flatten ++ post) tl.length
            (Bitmap.leading_zeros W bm + 1)
            (Bitmap.unset W bm (Bitmap.leading_zeros W bm))
        from rfl]
    have harith : Bitmap.leading_zeros W bm + 1 = pre.length + it.length := by
      rw [hhead]; omega
    have hspan : slice (pre ++ (it :: tl).flatten ++ post) pre.length
        (Bitmap.leading_zeros W bm + 1) = it := by
      rw [harith]
      unfold slice
      rw [show pre ++ (it :: tl).flatten ++ post
          = pre ++ (it ++ (tl.flatten ++ post)) from by simp [List.append_assoc]]
      rw [List.drop_left]
      have h2 : pre.length + it.length - pre.length = it.length := by omega
      rw [h2]
      exact List.take_left' rfl
    rw [hspan, harith]
    have hpre2 : pre.length + it.length = (pre ++ it).length := by
      rw [List.length_append]
    have hdata2 : pre ++ (it :: tl).flatten ++ post
        = (pre ++ it) ++ tl.flatten ++ post := by
      rw [List.flatten_cons]
      simp [List.append_assoc]
    rw [hpre2, hdata2,
      ih (pre ++ it) post (Bitmap.unset W bm (Bitmap.leading_zeros W bm))
        (unset_lt W bm _ hv)
        (fun x hx => hne x (List.mem_cons_of_mem it hx))
        (by rw [htail, ← hpre2])]
    rw [List.map_cons]
    unfold decodeSpan
    by_cases hit0 : it = [0] <;> simp [hit0]

theorem strVecInv_iter {W N : Nat} {v : StrVec W N} {items : List Str}
    (h : StrVecInv v items) : v.iter = items.map decodeSpan := by
  have hlen := strVecInv_len h
  obtain ⟨hNW, hne, htot, hv, hset, hdata⟩ := h
  unfold StrVec.iter
  rw [hlen, hdata]
  have := iterAux_spec (W := W) items [] (List.replicate (N - totalLen items) 0)
    v.bitmap hv hne (by rw [hset]; rfl)
  simpa using this

theorem getD_map_storedRepr (ss : List Str) (i : Nat) (hi : i < ss.length) :
    (ss.map storedRepr).getD i [] = storedRepr (ss.getD i []) := by
  rw [List.getD_eq_getElem?_getD, List.getD_eq_getElem?_getD, List.getElem?_map,
    List.getElem?_eq_getElem hi]
  rfl

theorem map_decodeSpan_storedRepr (ss : List Str) :
    (ss.map storedRepr).map decodeSpan = ss.map collapse := by
  induction ss with
  | nil => rfl
  | cons s rest ih =>
    rw [List.map_cons, List.map_cons, List.map_cons, decodeSpan_storedRepr, ih]

theorem totalLen_map_storedRepr (ss : List Str) :
    totalLen (ss.map storedRepr) = (ss.map (fun t => max 1 t.length)).sum := by
  induction ss with
  | nil => rfl
  | cons s rest ih =>
    rw [List.map_cons, totalLen_cons, storedRepr_length, List.map_cons,
      List.sum_cons, ih]

/-! ## Claim theorems for the string vector -/

/-- C1: for a vector of capacity `N` with bitmap width `W ≥ N`, pushing
strings `s0..sk` from `new()` with every push succeeding gives `len()`
equal to `k + 1`, `get i = some si` for `i ≤ k` (with `si` collapsed to
the empty string when it is empty or the single NUL byte), `get (k + 1)
= none`, and an iterator yielding exactly the `k + 1` decoded strings in
push order. -/
theorem strvec_append_read (W N : Nat) (ss : List Str) (v : StrVec W N)
    (hNW : N ≤ W) (h : StrVec.try_from W N ss = .ok v) :
    v.len = ss.length ∧
    (∀ i, i < ss.length → v.get i = some (collapse (ss.getD i []))) ∧
    v.get ss.length = none ∧
    v.iter = ss.map collapse := by
  have hinv := try_from_inv ss v hNW h
  have hlen : (ss.map storedRepr).length = ss.length := List.length_map ss _
  refine ⟨?_, ?_, ?_, ?_⟩
  · rw [strVecInv_len hinv, hlen]
  · intro i hi
    have hget := (strVecInv_get hinv i).1 (by omega)
    rw [hget, getD_map_storedRepr ss i hi, decodeSpan_storedRepr]
  · exact (strVecInv_get hinv ss.length).2 (by omega)
  · rw [strVecInv_iter hinv, map_decodeSpan_storedRepr]

/-- Witness for C1 with `["ab", "cde"]` pushed into a `StrVec 8 7`. -/
theorem strvec_append_read_witness :
    StrVec.try_from 8 7 [[97, 98], [99, 100, 101]]
      = .ok (⟨72, [97, 98, 99, 100, 101, 0, 0]⟩ : StrVec 8 7) ∧
    ((⟨72, [97, 98, 99, 100, 101, 0, 0]⟩ : StrVec 8 7).len = 2 ∧
     (∀ i, i < 2 →
       (⟨72, [97, 98, 99, 100, 101, 0, 0]⟩ : StrVec 8 7).get i
         = some (collapse ([[97, 98], [99, 100, 101]].getD i []))) ∧
     (⟨72, [97, 98, 99, 100, 101, 0, 0]⟩ : StrVec 8 7).get 2 = none ∧
     (⟨72, [97, 98, 99, 100, 101, 0, 0]⟩ : StrVec 8 7).iter
       = [[97, 98], [99, 100, 101]].map collapse) :=
  ⟨by decide,
   strvec_append_read 8 7 [[97, 98], [99, 100, 101]] _ (by decide) (by decide)⟩

/-- C2: from any state reached by successful pushes, the write offset
`W - trailing_zeros(bitmap)` equals the total number of bytes stored
(the sum of `max 1 len` over the pushed strings); an empty string is
substituted by the single byte 0x00; a push fails with
`CapacityExceeded (offset + len, N)` exactly when `offset + len > N`,
and otherwise sets the boundary bit at `offset + len - 1` and copies the
bytes into `data[offset .. offset + len]`. -/
theorem strvec_push_algorithm (W N : Nat) (ss : List Str) (v : StrVec W N)
    (s : Str) (hNW : N ≤ W) (h : StrVec.try_from W N ss = .ok v) :
    v.next_offset = (ss.map (fun t => max 1 t.length)).sum ∧
    (s = [] → storedRepr s = [0]) ∧
    (N < (ss.map (fun t => max 1 t.length)).sum + (storedRepr s).length →
      v.push s = (v, some (ExceedsCapacity.mk
          ((ss.map (fun t => max 1 t.length)).sum + (storedRepr s).length) N))) ∧
    ((ss.map (fun t => max 1 t.length)).sum + (storedRepr s).length ≤ N →
      v.push s =
        (StrVec.mk
          (Bitmap.set W v.bitmap
            ((ss.map (fun t => max 1 t.length)).sum + (storedRepr s).length - 1))
          (StrVec.writeSlice v.data
            ((ss.map (fun t => max 1 t.length)).sum) (storedRepr s)),
          none)) := by
  have hinv := try_from_inv ss v hNW h
  have hT := totalLen_map_storedRepr ss
  have hoff := strVecInv_next_offset hinv
  have hpush := strVecInv_push hinv s
  refine ⟨by rw [hoff, hT], fun hs => by rw [hs]; rfl, ?_, ?_⟩
  · intro hgt
    rw [← hT] at hgt ⊢
    exact hpush.1 hgt
  · intro hle
    rw [← hT] at hle ⊢
    exact (hpush.2 hle).1

/-- Witness for C2: state `["ab"]`, then pushing `"cde"` succeeds. -/
theorem strvec_push_algorithm_witness :
    StrVec.try_from 8 7 [[97, 98]] = .ok (⟨64, [97, 98, 0, 0, 0, 0, 0]⟩ : StrVec 8 7) ∧
    ((⟨64, [97, 98, 0, 0, 0, 0, 0]⟩ : StrVec 8 7).next_offset = 2 ∧
     (([99, 100, 101] : Str) = [] → storedRepr [99, 100, 101] = [0]) ∧
     (7 < 2 + (storedRepr [99, 100, 101]).length →
       (⟨64, [97, 98, 0, 0, 0, 0, 0]⟩ : StrVec 8 7).push [99, 100, 101]
         = (⟨64, [97, 98, 0, 0, 0, 0, 0]⟩,
            some { length := 2 + (storedRepr [99, 100, 101]).length, capacity := 7 })) ∧
     (2 + (storedRepr [99, 100, 101]).length ≤ 7 →
       (⟨64, [97, 98, 0, 0, 0, 0, 0]⟩ : StrVec 8 7).push [99, 100, 101]
         = ({ bitmap := Bitmap.set 8 64 (2 + (storedRepr [99, 100, 101]).length - 1),
              data := StrVec.writeSlice [97, 98, 0, 0, 0, 0, 0] 2
                (storedRepr [99, 100, 101]) },
            none))) :=
  ⟨by decide,
   strvec_push_algorithm 8 7 [[97, 98]] _ [99, 100, 101] (by decide) (by decide)⟩

/-- C8: pushing the empty string and pushing the one-byte NUL string
produce identical results on any vector, and when the push succeeds on a
reachable vector, the new item reads back as the empty string and the
vector behaves identically under `len`, `get` and `iter`. -/
theorem push_empty_eq_push_nul (W N : Nat) (v : StrVec W N) (ss : List Str)
    (hNW : N ≤ W) (h : StrVec.try_from W N ss = .ok v)
    (hok : (v.push []).2 = none) :
    v.push [] = v.push [0] ∧
    (v.push []).1.len = ss.length + 1 ∧
    (v.push []).1.get ss.length = some [] ∧
    (v.push []).1.iter = ss.map collapse ++ [[]] := by
  have hinv := try_from_inv ss v hNW h
  have hpush := strVecInv_push hinv []
  have hle : totalLen (ss.map storedRepr) + (storedRepr []).length ≤ N := by
    by_contra hgt
    have := hpush.1 (by omega)
    rw [this] at hok
    exact absurd hok (by simp)
  obtain ⟨heq, hinv2⟩ := hpush.2 hle
  have hlen2 : (ss.map storedRepr ++ [storedRepr []]).length = ss.length + 1 := by
    rw [List.length_append, List.length_map]
    rfl
  refine ⟨rfl, ?_, ?_, ?_⟩
  · rw [strVecInv_len hinv2, hlen2]
  · have hget := (strVecInv_get hinv2 ss.length).1 (by omega)
    rw [hget]
    have hgetD : (ss.map storedRepr ++ [storedRepr []]).getD ss.length [] = [0] := by
      rw [List.getD_eq_getElem?_getD,
        show ss.length = (ss.map storedRepr).length from (List.length_map ss _).symm,
        List.getElem?_concat_length]
      rfl
    rw [hgetD]
    rfl
  · rw [strVecInv_iter hinv2, List.map_append, map_decodeSpan_storedRepr]
    rfl

/-- Witness for C8 with `["a"]` pushed into a `StrVec 8 7`. -/
theorem push_empty_eq_push_nul_witness :
    StrVec.try_from 8 7 [[97]] = .ok (⟨128, [97, 0, 0, 0, 0, 0, 0]⟩ : StrVec 8 7) ∧
    (((⟨128, [97, 0, 0, 0, 0, 0, 0]⟩ : StrVec 8 7).push []).2 = none ∧
    ((⟨128, [97, 0, 0, 0, 0, 0, 0]⟩ : StrVec 8 7).push []
        = (⟨128, [97, 0, 0, 0, 0, 0, 0]⟩ : StrVec 8 7).push [0] ∧
     ((⟨128, [97, 0, 0, 0, 0, 0, 0]⟩ : StrVec 8 7).push []).1.len = 2 ∧
     ((⟨128, [97, 0, 0, 0, 0, 0, 0]⟩ : StrVec 8 7).push []).1.get 1 = some [] ∧
     ((⟨128, [97, 0, 0, 0, 0, 0, 0]⟩ : StrVec 8 7).push []).1.iter
       = [[97]].map collapse ++ [[]])) :=
  ⟨by decide, by decide,
   push_empty_eq_push_nul 8 7 _ [[97]] (by decide) (by decide) (by decide)⟩

/-! ## `BoundedStr` invariant and round trips -/

theorem bInv_new (N : Nat) : BInv (BoundedStr.new N) :=
  ⟨[], rfl, Nat.zero_le N, by simp [BoundedStr.new]⟩

theorem bInv_mk (N : Nat) (s : Str) (h : s.length ≤ N) :
    BInv (BoundedStr.mk s.length (s ++ List.replicate (N - s.length) 0)
      : BoundedStr N) :=
  ⟨s, rfl, h, rfl⟩

theorem bInv_data_eq {N : Nat} {b : BoundedStr N} (hb : BInv b) :
    b.data = b.as_str ++ List.replicate (N - b.length) 0 ∧
    b.as_str.length = b.length ∧ b.length ≤ N := by
  obtain ⟨c, hc1, hc2, hc3⟩ := hb
  have hstr : b.as_str = c := by
    unfold BoundedStr.as_str
    rw [hc3, List.take_left' hc1]
  rw [hstr, ← hc1]
  exact ⟨by rw [hc3, hc1], rfl, by omega⟩

theorem push_str_err {N : Nat} (b : BoundedStr N) (s : Str)
    (h : N < b.length + s.length) :
    b.push_str s = (b, some (ExceedsCapacity.mk (b.length + s.length) N)) := by
  unfold BoundedStr.push_str
  rw [if_pos (by omega)]

theorem push_str_snd_none {N : Nat} (b : BoundedStr N) (s : Str)
    (h : b.length + s.length ≤ N) :
    (b.push_str s).2 = none := by
  unfold BoundedStr.push_str
  rw [if_neg (by omega)]

theorem push_str_ok {N : Nat} (b : BoundedStr N) (hb : BInv b) (s : Str)
    (h : b.length + s.length ≤ N) (h255 : b.length + s.length ≤ 255) :
    b.push_str s = ((BoundedStr.mk (b.length + s.length)
        ((b.as_str ++ s) ++ List.replicate (N - (b.length + s.length)) 0)
        : BoundedStr N),
      none) := by
  obtain ⟨hdata, hlen, hle⟩ := bInv_data_eq hb
  unfold BoundedStr.push_str
  rw [if_neg (by omega), Nat.mod_eq_of_lt (by omega)]
  unfold StrVec.writeSlice
  have htake : b.data.take b.length = b.as_str := by
    rw [hdata, List.take_left' hlen]
  have hdrop : b.data.drop (b.length + s.length)
      = List.replicate (N - b.length - s.length) 0 := by
    rw [hdata, ← hlen, List.drop_add, List.drop_left, drop_replicate_releq, hlen]
  rw [htake, hdrop]
  have harith : N - b.length - s.length = N - (b.length + s.length) := by omega
  rw [harith]

theorem bInv_push_str {N : Nat} (b : BoundedStr N) (hN : N ≤ 255)
    (hb : BInv b) (s : Str) :
    BInv (b.push_str s).1 := by
  by_cases h : b.length + s.length ≤ N
  · rw [push_str_ok b hb s h (by omega)]
    refine ⟨b.as_str ++ s, ?_, ?_, ?_⟩
    · show (b.as_str ++ s).length = b.length + s.length
      rw [List.length_append, (bInv_data_eq hb).2.1]
    · show (b.as_str ++ s).length ≤ N
      rw [List.length_append, (bInv_data_eq hb).2.1]; omega
    · show (b.as_str ++ s) ++ List.replicate (N - (b.length + s.length)) 0
          = (b.as_str ++ s) ++ List.replicate (N - (b.as_str ++ s).length) 0
      rw [List.length_append, (bInv_data_eq hb).2.1]
  · rw [push_str_err b s (by omega)]
    exact hb

theorem push_str_as_str {N : Nat} (b : BoundedStr N) (hb : BInv b) (s : Str)
    (h : b.length + s.length ≤ N) (h255 : b.length + s.length ≤ 255) :
    (b.push_str s).1.as_str = b.as_str ++ s := by
  rw [push_str_ok b hb s h h255]
  show List.take (b.length + s.length)
      ((b.as_str ++ s) ++ List.replicate (N - (b.length + s.length)) 0)
      = b.as_str ++ s
  exact List.take_left' (by rw [List.length_append, (bInv_data_eq hb).2.1])

theorem boundedstr_try_from_ok (N : Nat) (s : Str) (h : s.length ≤ N) :
    BoundedStr.try_from N s
      = .ok (BoundedStr.mk (s.length % 256) (s ++ List.replicate (N - s.length) 0)
          : BoundedStr N) := by
  unfold BoundedStr.try_from
  rw [if_neg (by omega)]

theorem boundedstr_try_from_ok_small (N : Nat) (s : Str) (h : s.length ≤ N)
    (h255 : s.length ≤ 255) :
    BoundedStr.try_from N s
      = .ok (BoundedStr.mk s.length (s ++ List.replicate (N - s.length) 0)
          : BoundedStr N) := by
  rw [boundedstr_try_from_ok N s h, Nat.mod_eq_of_lt (by omega)]

theorem boundedstr_try_from_err (N : Nat) (s : Str) (h : N < s.length) :
    BoundedStr.try_from N s = .error (ExceedsCapacity.mk s.length N) := by
  unfold BoundedStr.try_from
  rw [if_pos (by omega)]

theorem as_str_mk (N : Nat) (s : Str) :
    (BoundedStr.mk s.length (s ++ List.replicate (N - s.length) 0)
      : BoundedStr N).as_str = s := by
  unfold BoundedStr.as_str
  exact List.take_left' rfl

theorem bReach_inv {N : Nat} (hN : N ≤ 255) {b : BoundedStr N}
    (h : BReach N b) : BInv b := by
  induction h with
  | new => exact bInv_new N
  | const_from hsb =>
    rename_i s b2
    unfold BoundedStr.const_from at hsb
    by_cases hlen : s.length > N
    · rw [if_pos hlen] at hsb
      exact absurd hsb (by simp)
    · rw [if_neg hlen] at hsb
      injection hsb with hsb2
      rw [← hsb2, Nat.mod_eq_of_lt (by omega)]
      exact bInv_mk N s (by omega)
  | const_try_from hsb =>
    rename_i s b2
    unfold BoundedStr.const_try_from at hsb
    by_cases hlen : s.length > N
    · rw [if_pos hlen] at hsb
      exact absurd hsb (by simp)
    · rw [if_neg hlen] at hsb
      injection hsb with hsb2
      rw [← hsb2, Nat.mod_eq_of_lt (by omega)]
      exact bInv_mk N s (by omega)
  | try_from hsb =>
    rename_i s b2
    unfold BoundedStr.try_from at hsb
    by_cases hlen : s.length > N
    · rw [if_pos hlen] at hsb
      exact absurd hsb (by simp)
    · rw [if_neg hlen] at hsb
      injection hsb with hsb2
      rw [← hsb2, Nat.mod_eq_of_lt (by omega)]
      exact bInv_mk N s (by omega)
  | push_str s _ ih =>
    exact bInv_push_str _ hN ih s
  | push c _ ih =>
    exact bInv_push_str _ hN ih c

theorem getD_replicate_zero : ∀ (n j : Nat), (List.replicate n 0).getD j 0 = 0 := by
  intro n
  induction n with
  | zero => intro j; cases j <;> rfl
  | succ n ih =>
    intro j
    cases j with
    | zero => rfl
    | succ j => rw [List.replicate_succ]; exact ih j

set_option maxRecDepth 4000 in
/-- C10 counterexample: `N` is an unrestricted const generic, and at
`N = 256` the `length as u8` store wraps.  `try_from` of a 256-byte
string succeeds with a stored length of 0, so the reachable value has a
non-NUL byte at an index `≥ length`; moreover it shares its `as_str`
(the empty string) with `new()` while differing byte-wise, so the
derived field-wise equality distinguishes two values holding the same
logical string content. -/
theorem boundedstr_invariant_counterexample :
    BoundedStr.try_from 256 (List.replicate 256 97)
      = .ok (⟨0, List.replicate 256 97⟩ : BoundedStr 256) ∧
    ¬ (∀ i, (⟨0, List.replicate 256 97⟩ : BoundedStr 256).length ≤ i →
        (⟨0, List.replicate 256 97⟩ : BoundedStr 256).data.getD i 0 = 0) ∧
    (BoundedStr.new 256).as_str
      = (⟨0, List.replicate 256 97⟩ : BoundedStr 256).as_str ∧
    BoundedStr.new 256 ≠ (⟨0, List.replicate 256 97⟩ : BoundedStr 256) := by
  refine ⟨by decide, ?_, by decide, by decide⟩
  intro hall
  have h0 := hall 0 (Nat.le_refl 0)
  exact absurd h0 (by decide)

/-- C10 amended: provided the capacity satisfies `N ≤ 255` (the
documented bound of the one-byte length field), every `BoundedStr`
reachable through the public constructors and mutators has
`length ≤ N`, an `N`-byte buffer whose bytes at indices `≥ length` are
NUL, and consequently the derived byte-wise equality (hence ordering and
hashing, which are derived from the same fields) identifies any two
reachable values holding the same string content.  For `N ≥ 256` the
wrapping `length as u8` casts break the invariant. -/
theorem boundedstr_invariant (N : Nat) (b b2 : BoundedStr N) (hN : N ≤ 255)
    (h : BReach N b) (h2 : BReach N b2) :
    b.length ≤ N ∧ b.data.length = N ∧
    (∀ i, b.length ≤ i → b.data.getD i 0 = 0) ∧
    (b.as_str = b2.as_str ↔ b = b2) := by
  have hb := bReach_inv hN h
  have hb2 := bReach_inv hN h2
  obtain ⟨hdata, hlen, hle⟩ := bInv_data_eq hb
  obtain ⟨hdata2, hlen2, hle2⟩ := bInv_data_eq hb2
  refine ⟨hle, ?_, ?_, ?_, ?_⟩
  · rw [hdata, List.length_append, hlen, List.length_replicate]
    omega
  · intro i hi
    rw [hdata, List.getD_eq_getElem?_getD, List.getElem?_append_right (by omega),
      ← List.getD_eq_getElem?_getD, getD_replicate_zero]
  · intro hstr
    have hl : b.length = b2.length := by rw [← hlen, ← hlen2, hstr]
    have hd : b.data = b2.data := by rw [hdata, hdata2, hstr, hl]
    cases b
    cases b2
    simp only at hl hd
    rw [hl, hd]
  · intro hbb
    rw [hbb]

/-- Witness for C10 (amended) at two concretely reachable values. -/
theorem boundedstr_invariant_witness :
    (3 : Nat) ≤ 255 ∧
    ((BoundedStr.new 3).length ≤ 3 ∧ (BoundedStr.new 3).data.length = 3 ∧
    (∀ i, (BoundedStr.new 3).length ≤ i → (BoundedStr.new 3).data.getD i 0 = 0) ∧
    ((BoundedStr.new 3).as_str = (BoundedStr.new 3).as_str ↔
      BoundedStr.new 3 = BoundedStr.new 3)) :=
  ⟨by decide,
   boundedstr_invariant 3 (BoundedStr.new 3) (BoundedStr.new 3) (by decide)
     BReach.new BReach.new⟩

/-! ## Round trip (C4) -/

theorem firstNul_append (s : Str) (h : 0 ∉ s) (k : Nat) :
    FixedStr.firstNul (s ++ List.replicate k 0) = s.length := by
  induction s with
  | nil =>
    cases k with
    | zero => rfl
    | succ k => rw [List.nil_append, List.replicate_succ]; rfl
  | cons a rest ih =>
    have ha : ¬ (a = 0) := fun h0 => h (by rw [h0]; exact List.mem_cons_self 0 rest)
    have hrest : 0 ∉ rest := fun hm => h (List.mem_cons_of_mem a hm)
    rw [List.cons_append]
    unfold FixedStr.firstNul
    rw [if_neg ha, ih hrest]
    rfl

set_option maxRecDepth 4000 in
/-- C4 counterexample, two failing instances of the original claim: the
one-byte string `"\0"` fits a `FixedStr 2` but reads back trimmed as the
empty string; and a 256-byte string fits a `BoundedStr 256` (`N` is an
unrestricted const generic) but the `length as u8` store wraps to 0, so
`as_str` returns the empty string instead of the stored content. -/
theorem roundtrip_counterexample :
    (([0] : Str).length ≤ 2 ∧
     FixedStr.try_from 2 [0] = .ok (FixedStr.mk [0, 0]) ∧
     (FixedStr.mk [0, 0] : FixedStr 2).as_str_trimmed ≠ [0]) ∧
    ((List.replicate 256 97 : Str).length ≤ 256 ∧
     BoundedStr.try_from 256 (List.replicate 256 97)
       = .ok (⟨0, List.replicate 256 97⟩ : BoundedStr 256) ∧
     (⟨0, List.replicate 256 97⟩ : BoundedStr 256).as_str
       ≠ List.replicate 256 97) := by decide

/-- C4 amended: for every `s` with `len(s) ≤ N`, `BoundedStr::try_from`
succeeds and `as_str` returns `s` exactly provided `len(s) ≤ 255` (the
bound of the one-byte length field; for longer strings, possible only at
`N ≥ 256`, the stored length wraps); `FixedStr::try_from` succeeds, and
`as_str_trimmed` returns `s` exactly provided `s` contains no NUL byte
(for a string containing NUL it stops at the first NUL). -/
theorem roundtrip_amended (N : Nat) (s : Str) (h : s.length ≤ N) :
    (s.length ≤ 255 →
     BoundedStr.try_from N s
        = .ok (BoundedStr.mk s.length (s ++ List.replicate (N - s.length) 0)
            : BoundedStr N) ∧
     (BoundedStr.mk s.length (s ++ List.replicate (N - s.length) 0)
       : BoundedStr N).as_str = s) ∧
    (FixedStr.try_from N s
        = .ok (FixedStr.mk (s ++ List.replicate (N - s.length) 0)) ∧
     (0 ∉ s →
       (FixedStr.mk (s ++ List.replicate (N - s.length) 0) : FixedStr N).as_str_trimmed
         = s)) := by
  refine ⟨fun h255 => ⟨boundedstr_try_from_ok_small N s h h255, as_str_mk N s⟩,
    ?_, ?_⟩
  · unfold FixedStr.try_from
    rw [if_neg (by omega)]
  · intro h0
    unfold FixedStr.as_str_trimmed
    rw [show (FixedStr.mk (s ++ List.replicate (N - s.length) 0) : FixedStr N).data
        = s ++ List.replicate (N - s.length) 0 from rfl]
    rw [firstNul_append s h0 (N - s.length)]
    exact List.take_left' rfl

/-- Witness for C4 (amended) at `N = 3`, `s = "a"`. -/
theorem roundtrip_amended_witness :
    ([97] : Str).length ≤ 3 ∧
    ((([97] : Str).length ≤ 255 →
      BoundedStr.try_from 3 [97]
        = .ok (BoundedStr.mk 1 ([97] ++ List.replicate 2 0) : BoundedStr 3) ∧
      (BoundedStr.mk 1 ([97] ++ List.replicate 2 0) : BoundedStr 3).as_str = [97]) ∧
     (FixedStr.try_from 3 [97]
        = .ok (FixedStr.mk ([97] ++ List.replicate 2 0)) ∧
      (0 ∉ ([97] : Str) →
        (FixedStr.mk ([97] ++ List.replicate 2 0) : FixedStr 3).as_str_trimmed
          = [97]))) :=
  ⟨by decide, roundtrip_amended 3 [97] (by decide)⟩

/-! ## Error exactness across all fallible writes (C3) -/

set_option maxRecDepth 4000 in
/-- C3 counterexample: silent truncation on a success path.  At
`N = 256` the receiver holding 255 bytes is reachable via `try_from`;
`push_str` of one more byte passes the capacity check (`256 ≤ 256`) and
reports success, but the `new_len as u8` store wraps the length field to
0 and `as_str` afterwards returns the empty string — the content is
silently lost although no error was returned. -/
theorem capacity_error_counterexample :
    BoundedStr.try_from 256 (List.replicate 255 97)
      = .ok (⟨255, List.replicate 255 97 ++ [0]⟩ : BoundedStr 256) ∧
    (BoundedStr.push_str (⟨255, List.replicate 255 97 ++ [0]⟩ : BoundedStr 256)
        [98]).2 = none ∧
    (BoundedStr.push_str (⟨255, List.replicate 255 97 ++ [0]⟩ : BoundedStr 256)
        [98]).1.as_str = [] ∧
    (⟨255, List.replicate 255 97 ++ [0]⟩ : BoundedStr 256).as_str ++ [98]
      ≠ [] := by decide

/-- C3 amended: each fallible write — `BoundedStr::try_from`, `push`,
`push_str`, `FixedStr::try_from`, `StrVec::push`, `StrVec::try_from` —
returns `ExceedsCapacity` carrying the attempted total length and the
capacity exactly when the resulting stored content would exceed `N` (a
resulting length of exactly `N` succeeds), and on error the container is
unchanged.  On success the full content is stored and observable —
except that for `BoundedStr` a resulting length must also fit the
one-byte length field (`≤ 255`, automatic for `N ≤ 255`): for larger
resulting lengths, possible only at `N ≥ 256`, the `as u8` store wraps
and `as_str` silently truncates although success is reported. -/
theorem capacity_error_exactness (N W : Nat) (b : BoundedStr N) (s c : Str)
    (vss ss : List Str) (v : StrVec W N)
    (hb : BInv b) (hNW : N ≤ W) (hv : StrVec.try_from W N vss = .ok v) :
    (N < s.length → BoundedStr.try_from N s = .error (ExceedsCapacity.mk s.length N)) ∧
    (s.length ≤ N → ∃ b2 : BoundedStr N,
      BoundedStr.try_from N s = .ok b2 ∧ (s.length ≤ 255 → b2.as_str = s)) ∧
    (N < b.length + s.length →
      b.push_str s = (b, some (ExceedsCapacity.mk (b.length + s.length) N))) ∧
    (b.length + s.length ≤ N →
      (b.push_str s).2 = none ∧
      (b.length + s.length ≤ 255 → (b.push_str s).1.as_str = b.as_str ++ s)) ∧
    (N < b.length + c.length →
      b.push c = (b, some (ExceedsCapacity.mk (b.length + c.length) N))) ∧
    (b.length + c.length ≤ N →
      (b.push c).2 = none ∧
      (b.length + c.length ≤ 255 → (b.push c).1.as_str = b.as_str ++ c)) ∧
    (N < s.length → FixedStr.try_from N s = .error (ExceedsCapacity.mk s.length N)) ∧
    (s.length ≤ N → FixedStr.try_from N s
        = .ok (FixedStr.mk (s ++ List.replicate (N - s.length) 0) : FixedStr N)) ∧
    (N < totalLen (vss.map storedRepr) + (storedRepr s).length →
      v.push s = (v, some (ExceedsCapacity.mk
        (totalLen (vss.map storedRepr) + (storedRepr s).length) N))) ∧
    (totalLen (vss.map storedRepr) + (storedRepr s).length ≤ N →
      (v.push s).2 = none) ∧
    (totalLen (ss.map storedRepr) ≤ N →
      ∃ v2 : StrVec W N, StrVec.try_from W N ss = .ok v2) ∧
    (N < totalLen (ss.map storedRepr) →
      ∃ e, StrVec.try_from W N ss = .error e ∧ e.capacity = N ∧ N < e.length) := by
  have hvinv := try_from_inv vss v hNW hv
  have hvpush := strVecInv_push hvinv s
  have hbase := try_fromAux_inv ss (StrVec.new W N) [] (strVecInv_nil W N hNW)
  refine ⟨?_, ?_, ?_, ?_, ?_, ?_, ?_, ?_, ?_, ?_, ?_, ?_⟩
  · intro hgt
    exact boundedstr_try_from_err N s hgt
  · intro hle
    by_cases h255 : s.length ≤ 255
    · exact ⟨_, boundedstr_try_from_ok_small N s hle h255,
        fun _ => as_str_mk N s⟩
    · exact ⟨_, boundedstr_try_from_ok N s hle, fun hc => absurd hc h255⟩
  · intro hgt
    exact push_str_err b s hgt
  · intro hle
    exact ⟨push_str_snd_none b s hle,
      fun h255 => push_str_as_str b hb s hle h255⟩
  · intro hgt
    exact push_str_err b c hgt
  · intro hle
    exact ⟨push_str_snd_none b c hle,
      fun h255 => push_str_as_str b hb c hle h255⟩
  · intro hgt
    unfold FixedStr.try_from
    rw [if_pos (by omega)]
  · intro hle
    unfold FixedStr.try_from
    rw [if_neg (by omega)]
  · intro hgt
    exact hvpush.1 hgt
  · intro hle
    rw [(hvpush.2 hle).1]
  · intro hle
    obtain ⟨v2, hok, _⟩ := hbase.1 (by rw [totalLen_nil]; omega)
    exact ⟨v2, hok⟩
  · intro hgt
    exact hbase.2 (by rw [totalLen_nil]; omega)

/-- Witness for C3 at capacity 2 with bitmap width 8. -/
theorem capacity_error_exactness_witness :
    BInv (⟨1, [97, 0]⟩ : BoundedStr 2) ∧
    StrVec.try_from 8 2 [[97]] = .ok (⟨128, [97, 0]⟩ : StrVec 8 2) ∧
    ((2 < ([98] : Str).length →
       BoundedStr.try_from 2 [98] = .error (ExceedsCapacity.mk 1 2)) ∧
     (([98] : Str).length ≤ 2 → ∃ b2 : BoundedStr 2,
       BoundedStr.try_from 2 [98] = .ok b2 ∧
       (([98] : Str).length ≤ 255 → b2.as_str = [98])) ∧
     (2 < (⟨1, [97, 0]⟩ : BoundedStr 2).length + ([98] : Str).length →
       BoundedStr.push_str (⟨1, [97, 0]⟩ : BoundedStr 2) [98]
         = (⟨1, [97, 0]⟩, some (ExceedsCapacity.mk 2 2))) ∧
     ((⟨1, [97, 0]⟩ : BoundedStr 2).length + ([98] : Str).length ≤ 2 →
       (BoundedStr.push_str (⟨1, [97, 0]⟩ : BoundedStr 2) [98]).2 = none ∧
       ((⟨1, [97, 0]⟩ : BoundedStr 2).length + ([98] : Str).length ≤ 255 →
        (BoundedStr.push_str (⟨1, [97, 0]⟩ : BoundedStr 2) [98]).1.as_str
          = (⟨1, [97, 0]⟩ : BoundedStr 2).as_str ++ [98])) ∧
     (2 < (⟨1, [97, 0]⟩ : BoundedStr 2).length + ([99, 100] : Str).length →
       BoundedStr.push (⟨1, [97, 0]⟩ : BoundedStr 2) [99, 100]
         = (⟨1, [97, 0]⟩, some (ExceedsCapacity.mk 3 2))) ∧
     ((⟨1, [97, 0]⟩ : BoundedStr 2).length + ([99, 100] : Str).length ≤ 2 →
       (BoundedStr.push (⟨1, [97, 0]⟩ : BoundedStr 2) [99, 100]).2 = none ∧
       ((⟨1, [97, 0]⟩ : BoundedStr 2).length + ([99, 100] : Str).length ≤ 255 →
        (BoundedStr.push (⟨1, [97, 0]⟩ : BoundedStr 2) [99, 100]).1.as_str
          = (⟨1, [97, 0]⟩ : BoundedStr 2).as_str ++ [99, 100])) ∧
     (2 < ([98] : Str).length →
       FixedStr.try_from 2 [98] = .error (ExceedsCapacity.mk 1 2)) ∧
     (([98] : Str).length ≤ 2 → FixedStr.try_from 2 [98]
         = .ok (FixedStr.mk ([98] ++ List.replicate 1 0) : FixedStr 2)) ∧
     (2 < totalLen ([[97]].map storedRepr) + (storedRepr [98]).length →
       StrVec.push (⟨128, [97, 0]⟩ : StrVec 8 2) [98]
         = (⟨128, [97, 0]⟩, some (ExceedsCapacity.mk
             (totalLen ([[97]].map storedRepr) + (storedRepr [98]).length) 2))) ∧
     (totalLen ([[97]].map storedRepr) + (storedRepr [98]).length ≤ 2 →
       (StrVec.push (⟨128, [97, 0]⟩ : StrVec 8 2) [98]).2 = none) ∧
     (totalLen ([[97], [98], [99]].map storedRepr) ≤ 2 →
       ∃ v2 : StrVec 8 2, StrVec.try_from 8 2 [[97], [98], [99]] = .ok v2) ∧
     (2 < totalLen ([[97], [98], [99]].map storedRepr) →
       ∃ e, StrVec.try_from 8 2 [[97], [98], [99]] = .error e ∧
         e.capacity = 2 ∧ 2 < e.length)) :=
  ⟨⟨[97], rfl, by decide, rfl⟩, by decide,
   capacity_error_exactness 2 8 ⟨1, [97, 0]⟩ [98] [99, 100] [[97]]
     [[97], [98], [99]] ⟨128, [97, 0]⟩ ⟨[97], rfl, by decide, rfl⟩
     (by decide) (by decide)⟩

/-! ## Ordering, equality and hashing of `StrVec` (C6) -/

theorem cmpBytes_eq_iff : ∀ (a b : List Nat), StrVec.cmpBytes a b = .eq ↔ a = b := by
  intro a
  induction a with
  | nil =>
    intro b
    cases b with
    | nil => simp [StrVec.cmpBytes]
    | cons x xs => simp [StrVec.cmpBytes]
  | cons x xs ih =>
    intro b
    cases b with
    | nil => simp [StrVec.cmpBytes]
    | cons y ys =>
      unfold StrVec.cmpBytes
      by_cases hxy : x < y
      · rw [if_pos hxy]
        simp
        intro hh
        omega
      · rw [if_neg hxy]
        by_cases hyx : y < x
        · rw [if_pos hyx]
          simp
          intro hh
          omega
        · rw [if_neg hyx]
          have hx : x = y := by omega
          rw [ih ys]
          simp [hx]

/-- C6 counterexample: two reachable vectors with identical data buffers
but different bitmaps compare `Ordering.eq` under `cmp` and feed the
hasher identical byte streams, although they are not `==`-equal — so
`cmp` and hashing are not functions of the raw (bitmap, data) pair in
the way the claim states. -/
theorem strvec_ord_counterexample :
    StrVec.try_from 8 7 [[97, 98]] = .ok (⟨64, [97, 98, 0, 0, 0, 0, 0]⟩ : StrVec 8 7) ∧
    StrVec.try_from 8 7 [[97], [98]] = .ok (⟨192, [97, 98, 0, 0, 0, 0, 0]⟩ : StrVec 8 7) ∧
    StrVec.cmp (⟨64, [97, 98, 0, 0, 0, 0, 0]⟩ : StrVec 8 7)
      ⟨192, [97, 98, 0, 0, 0, 0, 0]⟩ = .eq ∧
    StrVec.hashBytes (⟨64, [97, 98, 0, 0, 0, 0, 0]⟩ : StrVec 8 7)
      = StrVec.hashBytes (⟨192, [97, 98, 0, 0, 0, 0, 0]⟩ : StrVec 8 7) ∧
    (⟨64, [97, 98, 0, 0, 0, 0, 0]⟩ : StrVec 8 7) ≠ ⟨192, [97, 98, 0, 0, 0, 0, 0]⟩ := by
  decide

/-- C6 amended: `==` (derived structural equality) holds iff the bitmap
and the data buffer are both identical; but `cmp` returns `Ordering.eq`
and the hash input streams coincide iff the `N`-byte data buffers alone
are identical, the bitmap being ignored by `Ord` and `Hash`. -/
theorem strvec_ord_eq_hash (W N : Nat) (v w : StrVec W N) :
    (v = w ↔ v.bitmap = w.bitmap ∧ v.data = w.data) ∧
    (v.cmp w = .eq ↔ v.data = w.data) ∧
    (v.hashBytes = w.hashBytes ↔ v.data = w.data) := by
  refine ⟨?_, ?_, Iff.rfl⟩
  · constructor
    · intro h
      rw [h]
      exact ⟨rfl, rfl⟩
    · intro ⟨h1, h2⟩
      cases v
      cases w
      simp only at h1 h2
      rw [h1, h2]
  · exact cmpBytes_eq_iff v.data w.data

/-! ## `split` and its reference segmentation -/

theorem splitAux_succ (W N : Nat) (data : List Nat) (length : Nat) (delim : Str)
    (fuel start i : Nat) (acc : StrVec W N) :
    BoundedStr.splitAux W N data length delim (fuel + 1) start i acc =
      if i < length then
        if N < i + delim.length then .crash
        else if slice data i (i + delim.length) = delim then
          match acc.push (slice (data.take length) start i) with
          | (acc2, none) =>
            BoundedStr.splitAux W N data length delim fuel
              (i + delim.length) (i + delim.length) acc2
          | (_, some _) => .crash
        else BoundedStr.splitAux W N data length delim fuel start (i + 1) acc
      else
        if start ≤ length then
          match acc.push (slice (data.take length) start length) with
          | (acc2, none) => .ok acc2
          | (_, some _) => .crash
        else .ok acc := by
  conv_lhs => unfold BoundedStr.splitAux

theorem refSegsAux_succ (s d : Str) (fuel start i : Nat) :
    refSegsAux s d (fuel + 1) start i =
      if i < s.length then
        if i + d.length ≤ s.length ∧ slice s i (i + d.length) = d then
          slice s start i :: refSegsAux s d fuel (i + d.length) (i + d.length)
        else refSegsAux s d fuel start (i + 1)
      else [slice s start s.length] := by
  conv_lhs => unfold refSegsAux

theorem refSegsAux_fuel (s d : Str) (hd : d ≠ []) : ∀ (f1 f2 start i : Nat),
    s.length - i < f1 → s.length - i < f2 →
    refSegsAux s d f1 start i = refSegsAux s d f2 start i := by
  have hdl : 1 ≤ d.length := List.length_pos.mpr hd
  intro f1
  induction f1 with
  | zero => intro f2 start i h1 _; omega
  | succ f1 ih =>
    intro f2 start i h1 h2
    cases f2 with
    | zero => omega
    | succ f2 =>
      rw [refSegsAux_succ, refSegsAux_succ]
      by_cases hi : i < s.length
      · rw [if_pos hi, if_pos hi]
        by_cases hm : i + d.length ≤ s.length ∧ slice s i (i + d.length) = d
        · rw [if_pos hm, if_pos hm,
            ih f2 (i + d.length) (i + d.length) (by omega) (by omega)]
        · rw [if_neg hm, if_neg hm, ih f2 start (i + 1) (by omega) (by omega)]
      · rw [if_neg hi, if_neg hi]

theorem slice_getElem (data : List Nat) (a b j : Nat) (hj : j < b - a) :
    (slice data a b)[j]? = data[a + j]? := by
  unfold slice
  rw [List.getElem?_take_of_lt hj, List.getElem?_drop]

theorem drop_append_le {l1 l2 : List Nat} {n : Nat} (h : n ≤ l1.length) :
    (l1 ++ l2).drop n = l1.drop n ++ l2 := by
  rw [List.drop_append_eq_append_drop]
  have hz : n - l1.length = 0 := by omega
  rw [hz]
  simp

theorem take_append_le {l1 l2 : List Nat} {n : Nat} (h : n ≤ l1.length) :
    (l1 ++ l2).take n = l1.take n := by
  rw [List.take_append_eq_append_take]
  have hz : n - l1.length = 0 := by omega
  rw [hz]
  simp

theorem slice_append_inner (s rest : List Nat) (a b : Nat) (ha : a ≤ s.length)
    (hb : b ≤ s.length) :
    slice (s ++ rest) a b = slice s a b := by
  unfold slice
  rw [drop_append_le ha, take_append_le (by rw [List.length_drop]; omega)]

theorem window_match_iff (s d : Str) (k i : Nat) (hd0 : 0 ∉ d)
    (hi : i < s.length) (hiN : i + d.length ≤ s.length + k) :
    (slice (s ++ List.replicate k 0) i (i + d.length) = d
      ↔ (i + d.length ≤ s.length ∧ slice s i (i + d.length) = d)) := by
  constructor
  · intro hbuf
    have hle : i + d.length ≤ s.length := by
      by_contra hgt
      have hk1 : 1 ≤ k := by omega
      have hj : s.length - i < i + d.length - i := by omega
      have h1 : (slice (s ++ List.replicate k 0) i (i + d.length))[s.length - i]?
          = (s ++ List.replicate k 0)[i + (s.length - i)]? :=
        slice_getElem _ i (i + d.length) (s.length - i) hj
      have harith : i + (s.length - i) = s.length := by omega
      rw [harith] at h1
      have h2 : (s ++ List.replicate k 0)[s.length]? = some 0 := by
        rw [List.getElem?_append_right (Nat.le_refl s.length), Nat.sub_self]
        exact List.getElem?_replicate_of_lt (by omega)
      rw [hbuf, h2] at h1
      exact hd0 (List.getElem?_mem h1)
    refine ⟨hle, ?_⟩
    rw [← slice_append_inner s (List.replicate k 0) i (i + d.length) (by omega) hle]
    exact hbuf
  · intro hcond
    rw [slice_append_inner s (List.replicate k 0) i (i + d.length)
      (by omega) hcond.1]
    exact hcond.2

theorem splitAux_refSegs {W N : Nat} (s d : Str) (hNW : N ≤ W)
    (hd : d ≠ []) (hd0 : 0 ∉ d) (hsN : s.length ≤ N)
    (hwin : s.length + d.length ≤ N + 1) :
    ∀ (fuel start i : Nat) (acc : StrVec W N) (done : List Str),
    StrVecInv acc (done.map storedRepr) →
    start ≤ i → start ≤ s.length → s.length - i < fuel →
    totalLen ((done ++ refSegsAux s d fuel start i).map storedRepr) ≤ N →
    ∃ v : StrVec W N,
      BoundedStr.splitAux W N (s ++ List.replicate (N - s.length) 0) s.length d
          fuel start i acc = .ok v ∧
      StrVecInv v ((done ++ refSegsAux s d fuel start i).map storedRepr) := by
  have hdl : 1 ≤ d.length := List.length_pos.mpr hd
  have htake : (s ++ List.replicate (N - s.length) 0).take s.length = s :=
    List.take_left' rfl
  intro fuel
  induction fuel with
  | zero => intro start i acc done _ _ _ hm _; omega
  | succ fuel ih =>
    intro start i acc done hinv hsi hsl hm hcap
    rw [refSegsAux_succ] at hcap ⊢
    rw [splitAux_succ]
    by_cases hi : i < s.length
    · rw [if_pos hi] at hcap ⊢
      rw [if_pos hi]
      have hNlt : ¬ N < i + d.length := by omega
      rw [if_neg hNlt]
      have hwiff := window_match_iff s d (N - s.length) i hd0 hi (by omega)
      by_cases hm2 : i + d.length ≤ s.length ∧ slice s i (i + d.length) = d
      · rw [if_pos hm2] at hcap ⊢
        rw [if_pos (hwiff.mpr hm2), htake]
        have hexp : totalLen ((done ++ slice s start i ::
              refSegsAux s d fuel (i + d.length) (i + d.length)).map storedRepr)
            = totalLen (done.map storedRepr)
              + ((storedRepr (slice s start i)).length
                + totalLen ((refSegsAux s d fuel
                    (i + d.length) (i + d.length)).map storedRepr)) := by
          rw [List.map_append, totalLen_append, List.map_cons, totalLen_cons]
        have hpush := strVecInv_push hinv (slice s start i)
        have hfits : totalLen (done.map storedRepr)
            + (storedRepr (slice s start i)).length ≤ N := by
          rw [hexp] at hcap; omega
        obtain ⟨heq, hinv2⟩ := hpush.2 hfits
        have hinv3 : StrVecInv (acc.push (slice s start i)).1
            ((done ++ [slice s start i]).map storedRepr) := by
          rw [List.map_append]
          exact hinv2
        rw [heq] at hinv3
        rw [heq]
        obtain ⟨v, hok, hinvv⟩ := ih (i + d.length) (i + d.length) _
          (done ++ [slice s start i]) hinv3 (le_refl _) hm2.1 (by omega)
          (by rw [List.append_assoc]; exact hcap)
        refine ⟨v, hok, ?_⟩
        rw [List.append_assoc] at hinvv
        exact hinvv
      · rw [if_neg hm2] at hcap ⊢
        rw [if_neg (fun hb => hm2 (hwiff.mp hb))]
        exact ih start (i + 1) acc done hinv (by omega) hsl (by omega) hcap
    · rw [if_neg hi] at hcap ⊢
      rw [if_neg hi, if_pos hsl, htake]
      have hexp : totalLen ((done ++ [slice s start s.length]).map storedRepr)
          = totalLen (done.map storedRepr)
            + (storedRepr (slice s start s.length)).length := by
        rw [List.map_append, totalLen_append, List.map_cons, List.map_nil,
          totalLen_cons, totalLen_nil]
        omega
      have hpush := strVecInv_push hinv (slice s start s.length)
      have hfits : totalLen (done.map storedRepr)
          + (storedRepr (slice s start s.length)).length ≤ N := by
        rw [hexp] at hcap; omega
      obtain ⟨heq, hinv2⟩ := hpush.2 hfits
      have hinv3 : StrVecInv (acc.push (slice s start s.length)).1
          ((done ++ [slice s start s.length]).map storedRepr) := by
        rw [List.map_append]
        exact hinv2
      rw [heq] at hinv3
      rw [heq]
      exact ⟨_, rfl, hinv3⟩

theorem split_refines {W N : Nat} (b : BoundedStr N) (d : Str) (hNW : N ≤ W)
    (hb : BInv b) (hd : d ≠ []) (hd0 : 0 ∉ d)
    (hwin : b.length + d.length ≤ N + 1)
    (hcap : totalLen ((refSegs b.as_str d).map storedRepr) ≤ N) :
    ∃ v : StrVec W N, BoundedStr.split W b d = .ok v ∧
      v.iter = (refSegs b.as_str d).map collapse ∧
      v.len = (refSegs b.as_str d).length := by
  obtain ⟨hdata, hlen, hle⟩ := bInv_data_eq hb
  have hfuel1 : b.as_str.length - 0 < N + 2 := by omega
  have hfuel2 : b.as_str.length - 0 < b.as_str.length + 1 := by omega
  have hrs : refSegsAux b.as_str d (N + 2) 0 0 = refSegs b.as_str d :=
    refSegsAux_fuel b.as_str d hd (N + 2) (b.as_str.length + 1) 0 0 hfuel1 hfuel2
  have hmain := splitAux_refSegs b.as_str d hNW hd hd0 (by omega) (by omega)
    (N + 2) 0 0 (StrVec.new W N) [] (by simpa using strVecInv_nil W N hNW)
    (le_refl 0) (Nat.zero_le _) hfuel1 (by rw [List.nil_append, hrs]; exact hcap)
  obtain ⟨v, hok, hinv⟩ := hmain
  rw [List.nil_append, hrs] at hinv
  refine ⟨v, ?_, ?_, ?_⟩
  · rw [show BoundedStr.split W b d
        = BoundedStr.splitAux W N b.data b.length d (N + 2) 0 0 (StrVec.new W N)
        from rfl]
    rw [hdata, ← hlen]
    exact hok
  · rw [strVecInv_iter hinv, map_decodeSpan_storedRepr]
  · rw [strVecInv_len hinv, List.length_map]

/-- C5 amended: `split(delimiter)` scans left to right, comparing at
each cursor `i < length` the window `data[i .. i + |d|]` of the
NUL-padded buffer; for a nonempty NUL-free delimiter whose windows stay
inside the `N`-byte buffer (`length + |d| ≤ N + 1`) and whose segments
fit the result vector (`Σ max(1, |seg|) ≤ N`), every match ends the
current segment, the cursor jumps past the delimiter, the trailing
(possibly empty) segment is always pushed, and the result reads back as
exactly these segments (modulo the empty/NUL collapse).  In particular
splitting `"a,b,c,d"` by `","` yields `"a" "b" "c" "d"` and splitting
`","` by `","` yields two empty segments. -/
theorem split_correct (W N : Nat) (b : BoundedStr N) (d : Str)
    (hNW : N ≤ W) (hb : BInv b) (hd : d ≠ []) (hd0 : 0 ∉ d)
    (hwin : b.length + d.length ≤ N + 1)
    (hcap : totalLen ((refSegs b.as_str d).map storedRepr) ≤ N) :
    (∃ v : StrVec W N, BoundedStr.split W b d = .ok v ∧
      v.iter = (refSegs b.as_str d).map collapse ∧
      v.len = (refSegs b.as_str d).length) ∧
    (∃ v1 : StrVec 8 7,
      BoundedStr.split 8 (⟨7, [97, 44, 98, 44, 99, 44, 100]⟩ : BoundedStr 7) [44]
        = .ok v1 ∧ v1.iter = [[97], [98], [99], [100]] ∧ v1.len = 4) ∧
    (∃ v2 : StrVec 8 7,
      BoundedStr.split 8 (⟨1, [44, 0, 0, 0, 0, 0, 0]⟩ : BoundedStr 7) [44]
        = .ok v2 ∧ v2.iter = [[], []] ∧ v2.len = 2) := by
  refine ⟨split_refines b d hNW hb hd hd0 hwin hcap, ?_, ?_⟩
  · exact ⟨⟨240, [97, 98, 99, 100, 0, 0, 0]⟩, by decide, by decide, by decide⟩
  · exact ⟨⟨192, [0, 0, 0, 0, 0, 0, 0]⟩, by decide, by decide, by decide⟩

/-- C5 counterexample: the delimiter `"b\0"` applied to the `BStr7`
holding `"ab"` matches across the end of the string into the NUL
padding, so the final cursor lands past the string and the trailing
segment is never pushed: the result holds the single segment `"a"`,
while the claimed scan of the string (which cannot match a 2-byte
delimiter inside the 1 remaining byte) would produce the single segment
`"ab"`. -/
theorem split_counterexample :
    BInv (⟨2, [97, 98, 0, 0, 0, 0, 0]⟩ : BoundedStr 7) ∧
    refSegs (⟨2, [97, 98, 0, 0, 0, 0, 0]⟩ : BoundedStr 7).as_str [98, 0]
      = [[97, 98]] ∧
    (∃ v : StrVec 8 7,
      BoundedStr.split 8 (⟨2, [97, 98, 0, 0, 0, 0, 0]⟩ : BoundedStr 7) [98, 0]
        = .ok v ∧ v.iter = [[97]] ∧ v.len = 1) ∧
    ¬ (∃ v : StrVec 8 7,
      BoundedStr.split 8 (⟨2, [97, 98, 0, 0, 0, 0, 0]⟩ : BoundedStr 7) [98, 0]
        = .ok v ∧ v.iter = (refSegs
            (⟨2, [97, 98, 0, 0, 0, 0, 0]⟩ : BoundedStr 7).as_str [98, 0]).map
              collapse) :=
  ⟨⟨[97, 98], rfl, by decide, rfl⟩, by decide,
   ⟨⟨128, [97, 0, 0, 0, 0, 0, 0]⟩, by decide, by decide, by decide⟩,
   fun ⟨v, hok, hiter⟩ => by
     have hv : v = ⟨128, [97, 0, 0, 0, 0, 0, 0]⟩ := by
       have : BoundedStr.split 8 (⟨2, [97, 98, 0, 0, 0, 0, 0]⟩ : BoundedStr 7)
           [98, 0] = .ok ⟨128, [97, 0, 0, 0, 0, 0, 0]⟩ := by decide
       rw [this] at hok
       injection hok with h2
       exact h2.symm
     rw [hv] at hiter
     exact absurd hiter (by decide)⟩

/-- Witness for C5 (amended) splitting `"a,b"` by `","` in a `BStr7`. -/
theorem split_correct_witness :
    BInv (⟨3, [97, 44, 98, 0, 0, 0, 0]⟩ : BoundedStr 7) ∧
    ((∃ v : StrVec 8 7,
      BoundedStr.split 8 (⟨3, [97, 44, 98, 0, 0, 0, 0]⟩ : BoundedStr 7) [44]
        = .ok v ∧
      v.iter = (refSegs (⟨3, [97, 44, 98, 0, 0, 0, 0]⟩
          : BoundedStr 7).as_str [44]).map collapse ∧
      v.len = (refSegs (⟨3, [97, 44, 98, 0, 0, 0, 0]⟩
          : BoundedStr 7).as_str [44]).length) ∧
    (∃ v1 : StrVec 8 7,
      BoundedStr.split 8 (⟨7, [97, 44, 98, 44, 99, 44, 100]⟩ : BoundedStr 7) [44]
        = .ok v1 ∧ v1.iter = [[97], [98], [99], [100]] ∧ v1.len = 4) ∧
    (∃ v2 : StrVec 8 7,
      BoundedStr.split 8 (⟨1, [44, 0, 0, 0, 0, 0, 0]⟩ : BoundedStr 7) [44]
        = .ok v2 ∧ v2.iter = [[], []] ∧ v2.len = 2)) :=
  ⟨⟨[97, 44, 98], rfl, by decide, rfl⟩,
   split_correct 8 7 ⟨3, [97, 44, 98, 0, 0, 0, 0]⟩ [44] (by decide)
     ⟨[97, 44, 98], rfl, by decide, rfl⟩ (by decide) (by decide) (by decide)
     (by decide)⟩

/-! ## The panics of `split` (C9) -/

theorem splitAux_empty_delim {W N : Nat} (data : List Nat) (length : Nat)
    (hlen : 1 ≤ length) :
    ∀ (fuel j : Nat) (acc : StrVec W N),
    StrVecInv acc (List.replicate j [0]) → j + fuel = N + 2 →
    BoundedStr.splitAux W N data length [] fuel 0 0 acc = .crash := by
  intro fuel
  induction fuel with
  | zero =>
    intro j acc hinv hj
    have htot := hinv.2.2.1
    rw [totalLen_replicate_single] at htot
    omega
  | succ fuel ih =>
    intro j acc hinv hj
    have htot := hinv.2.2.1
    rw [totalLen_replicate_single] at htot
    rw [splitAux_succ]
    rw [if_pos (by omega : 0 < length)]
    rw [if_neg (by simp : ¬ N < 0 + List.length ([] : Str))]
    rw [if_pos (show slice data 0 (0 + List.length ([] : Str)) = [] from by
      simp [slice])]
    rw [show slice (data.take length) 0 0 = [] from by simp [slice]]
    have hs1 : (storedRepr ([] : Str)).length = 1 := rfl
    have hpush := strVecInv_push hinv ([] : Str)
    by_cases hjN : j + 1 ≤ N
    · obtain ⟨heq, hinv2⟩ := hpush.2
        (by rw [totalLen_replicate_single, hs1]; omega)
      have hinv3 : StrVecInv (acc.push ([] : Str)).1
          (List.replicate (j + 1) [0]) := by
        rw [List.replicate_succ']
        exact hinv2
      rw [heq] at hinv3
      rw [heq]
      have h00 : (0 : Nat) + List.length ([] : Str) = 0 := rfl
      rw [h00]
      exact ih (j + 1) _ hinv3 (by omega)
    · obtain herr := hpush.1 (by rw [totalLen_replicate_single, hs1]; omega)
      rw [herr]

/-- C9: `split` is not total over its public interface.  For every
`BoundedStr` of length at least 1, the empty delimiter matches at the
cursor without advancing it, so single-byte items are pushed until the
result vector's capacity is exceeded and the `unwrap` panics; and the
window comparison `data[i .. i + delim.len]` panics with an out-of-range
slice when the scan reaches `i + delim.len > N`, as for the full-length
string `"aaaaaaa"` probed with the unmatched two-byte delimiter `",,"`. -/
theorem split_panics (W N : Nat) (b : BoundedStr N) (hNW : N ≤ W)
    (hlen : 1 ≤ b.length) :
    BoundedStr.split W b [] = .crash ∧
    BoundedStr.split 8 (⟨7, [97, 97, 97, 97, 97, 97, 97]⟩ : BoundedStr 7) [44, 44]
      = .crash := by
  refine ⟨?_, by decide⟩
  rw [show BoundedStr.split W b [] = BoundedStr.splitAux W N b.data b.length []
      (N + 2) 0 0 (StrVec.new W N) from rfl]
  exact splitAux_empty_delim b.data b.length hlen (N + 2) 0 (StrVec.new W N)
    (by simpa using strVecInv_nil W N hNW) (by omega)

/-- Witness for C9 at a concrete one-byte `BoundedStr 3` with width 4. -/
theorem split_panics_witness :
    (3 : Nat) ≤ 4 ∧ 1 ≤ (⟨1, [97, 0, 0]⟩ : BoundedStr 3).length ∧
    (BoundedStr.split 4 (⟨1, [97, 0, 0]⟩ : BoundedStr 3) [] = .crash ∧
     BoundedStr.split 8 (⟨7, [97, 97, 97, 97, 97, 97, 97]⟩ : BoundedStr 7) [44, 44]
       = .crash) :=
  ⟨by decide, by decide,
   split_panics 4 3 ⟨1, [97, 0, 0]⟩ (by decide) (by decide)⟩

end QStr
